import Mathlib

/-!
Inverted index and boolean query evaluation (SearchEngine.cpp / SearchEngine.h)

A shallow embedding of the index data model (`Posting`, `TermInfo`, `Index`),
the merge intersection, the proximity matcher and the query parser, followed by
the properties proved about them.

Conventions of the embedding

* `std::string` is a `List Char`, one `Char` per `char`.
* `std::map<K, V>` is an association list kept in ascending key order
  (`mapInsert` is `operator[]` followed by an assignment, `mapFind` is `find`).
* `std::vector<T>` is a `List T`, `push_back` appends at the end.
* `unsigned long` is a `Nat` below `2 ^ 64`, `unsigned int` a `Nat` below
  `2 ^ 32`, `long` an `Int` in `[-2 ^ 63, 2 ^ 63)` (LP64); conversions and
  wrap-around are written out where the source performs arithmetic or a
  narrowing conversion.
-/

namespace SearchEngine

/-- A `std::string`. -/
abbrev Str := List Char

/-! ## `std::map` -/

/-- The call `m.find(k)`: the value stored under `k`, if any. -/
def mapFind {K V : Type} [DecidableEq K] (k : K) : List (K × V) → Option V
  | [] => none
  | (k', v) :: rest => if k = k' then some v else mapFind k rest

/-- The assignment `m[k] = v` on a key-ordered map: replaces the value under `k`,
or inserts the pair before the first larger key. -/
def mapInsert {K V : Type} [DecidableEq K] [LT K] [DecidableRel (fun a b : K => a < b)]
    (k : K) (v : V) : List (K × V) → List (K × V)
  | [] => [(k, v)]
  | (k', v') :: rest =>
    if k = k' then (k, v) :: rest
    else if k < k' then (k, v) :: (k', v') :: rest
    else (k', v') :: mapInsert k v rest

/-! ## Data model (SearchEngine.h) -/

/-- The class `Posting`: one document's occurrences of one term. -/
structure Posting where
  docID : Nat
  tf : Nat
  positions : List Nat
deriving DecidableEq

/-- The type `POSTING_LIST = map<unsigned int, Posting>`. -/
abbrev POSTING_LIST := List (Nat × Posting)

/-- The class `TermInfo`. -/
structure TermInfo where
  term : Str
  df : Nat
  postings : POSTING_LIST
deriving DecidableEq

/-- The type `TERMS_LIST = map<string, TermInfo>`. -/
abbrev TERMS_LIST := List (Str × TermInfo)

/-- The class `Index`. -/
structure Index where
  m_terms : TERMS_LIST
deriving DecidableEq

/-- The index of a freshly constructed `SearchEngine`. -/
def Index.empty : Index := ⟨[]⟩

/-- Conversion of an `unsigned long` to the `unsigned int` key of a `POSTING_LIST`. -/
def toUInt (x : Nat) : Nat := x % 2 ^ 32

/-- The expression `postings[key]` read as a value: the stored posting, or the
value-initialised one that `operator[]` inserts when the key is absent. -/
def postingAt (postings : POSTING_LIST) (key : Nat) : Posting :=
  match mapFind key postings with
  | some p => p
  | none => ⟨0, 0, []⟩

/-- The method `Index::addTerm(term, docID, pos)`.

`tf++` is modelled without wrap-around: `positions.push_back(pos)` runs first and
a `vector<unsigned long>` cannot hold `2 ^ 64` elements, so the increment never
overflows in an execution that reaches it. -/
def Index.addTerm (idx : Index) (term : Str) (docID pos : Nat) : Index :=
  let termInfo : TermInfo :=
    match mapFind term idx.m_terms with
    | some ti => ti
    | none => ⟨[], 0, []⟩
  let key := toUInt docID
  let p0 := postingAt termInfo.postings key
  let p1 : Posting := ⟨docID, p0.tf, p0.positions⟩
  let p2 : Posting := ⟨p1.docID, p1.tf, p1.positions ++ [pos]⟩
  let p3 : Posting := ⟨p2.docID, p2.tf + 1, p2.positions⟩
  let postings := mapInsert key p3 termInfo.postings
  ⟨mapInsert term ⟨term, postings.length, postings⟩ idx.m_terms⟩

/-- The method `Index::getPostings(term)`, returning the result together with the
index after the call (the method is not `const`). -/
def Index.getPostings (idx : Index) (term : Str) : Option POSTING_LIST × Index :=
  match mapFind term idx.m_terms with
  | some ti => (some ti.postings, idx)
  | none => (none, idx)

/-- The method `Index::getTermInfo(term)`, returning the result together with the
index after the call. -/
def Index.getTermInfo (idx : Index) (term : Str) : Option TermInfo × Index :=
  match mapFind term idx.m_terms with
  | some ti => (some ti, idx)
  | none => (none, idx)

/-- One call `addTerm(term, docID, pos)`. -/
structure AddTermCall where
  term : Str
  docID : Nat
  pos : Nat
deriving DecidableEq

/-- A sequence of `addTerm` calls applied in order. -/
def Index.addTerms (idx : Index) (calls : List AddTermCall) : Index :=
  calls.foldl (fun i c => i.addTerm c.term c.docID c.pos) idx

/-- The positions passed for `(term, docID)` in a call sequence, in call order. -/
def positionsPassed (term : Str) (docID : Nat) (calls : List AddTermCall) : List Nat :=
  (calls.filter (fun c => decide (c.term = term ∧ c.docID = docID))).map (fun c => c.pos)

/-- The position list found for `(term, docID)`: `postings[docID].positions` in the
posting list of `term`, empty when the term or the key is absent. -/
def Index.positionsOf (idx : Index) (term : Str) (docID : Nat) : List Nat :=
  match (idx.getPostings term).1 with
  | some postings => (postingAt postings (toUInt docID)).positions
  | none => []

/-- The positions passed in a call sequence for `term` and any docID that converts to
the same `unsigned int` key as `docID`, in call order. -/
def positionsPassedForKey (term : Str) (docID : Nat) (calls : List AddTermCall) : List Nat :=
  (calls.filter (fun c => decide (c.term = term ∧ toUInt c.docID = toUInt docID))).map
    (fun c => c.pos)

/-- The posting invariant of one index state. -/
def Index.PostingInvariant (idx : Index) : Prop :=
  ∀ t ti, (t, ti) ∈ idx.m_terms →
    ti.df = ti.postings.length ∧ ∀ d p, (d, p) ∈ ti.postings → p.tf = p.positions.length

/-! ## Tokenizer -/

/-- The third-party Krovetz stemmer used by `Tokenizer::stemTerm` (KrovetzStemmer.hpp,
not part of the repository): its word-length limit and its stemming routine, which
returns a status and the contents of the output buffer. -/
structure KrovetzStemmer where
  MAX_WORD_LENGTH : Nat
  kstem_stem_tobuffer : Str → Int × Str

/-- The method `Tokenizer::isStopWord`. -/
def isStopWord (word : Str) : Bool :=
  if word = ['t', 'h', 'e'] ∨ word = ['i', 's'] ∨ word = ['a', 't'] ∨
      word = ['o', 'f'] ∨ word = ['o', 'n'] ∨ word = ['a', 'n', 'd'] ∨
      word = ['a'] then true
  else false

/-- The method `Tokenizer::stemTerm`, returning the term after the call. -/
def stemTerm (ks : KrovetzStemmer) (term : Str) : Str :=
  if term.length ≤ ks.MAX_WORD_LENGTH then
    let r := ks.kstem_stem_tobuffer term
    if r.1 > 0 then r.2 else term
  else term

/-- The `for` loop of `Tokenizer::tokenize` over the remaining characters, carrying
`token` and `tokens`. -/
def tokenizeLoop (ks : KrovetzStemmer) : List Char → Str → List Str → Str × List Str
  | [], token, tokens => (token, tokens)
  | c :: rest, token, tokens =>
    if c.isAlpha || c.isDigit then
      tokenizeLoop ks rest (token ++ [c.toLower]) tokens
    else if token ≠ [] then
      if !isStopWord token then tokenizeLoop ks rest [] (tokens ++ [stemTerm ks token])
      else tokenizeLoop ks rest [] tokens
    else tokenizeLoop ks rest token tokens

/-- The method `Tokenizer::tokenize`. -/
def tokenize (ks : KrovetzStemmer) (text : Str) : List Str :=
  let r := tokenizeLoop ks text [] []
  if r.1 ≠ [] ∧ isStopWord r.1 = false then r.2 ++ [stemTerm ks r.1] else r.2

/-- A stemmer that reports failure on every word, so that `stemTerm` keeps each term. -/
def noStemmer : KrovetzStemmer := ⟨0, fun term => (0, term)⟩

/-! ## Queries -/

/-- The class `Query`. -/
structure Query where
  m_originalText : Str
  m_terms : List Str
deriving DecidableEq

/-- The constructor `Query::Query(queryText)`. -/
def Query.make (ks : KrovetzStemmer) (queryText : Str) : Query :=
  ⟨queryText, tokenize ks queryText⟩

/-- The method `Query::terms`. -/
def Query.terms (q : Query) : List Str := q.m_terms

/-- The class `ProximityQuery`. -/
structure ProximityQuery extends Query where
  m_proximityWnd : Nat
deriving DecidableEq

/-- The constructor `ProximityQuery::ProximityQuery(queryText, proximityWnd)`. -/
def ProximityQuery.make (ks : KrovetzStemmer) (queryText : Str) (proximityWnd : Nat) :
    ProximityQuery :=
  ⟨Query.make ks queryText, proximityWnd⟩

/-- The method `ProximityQuery::getProximityWnd`. -/
def ProximityQuery.getProximityWnd (q : ProximityQuery) : Nat := q.m_proximityWnd

/-- The locals and output parameters of `SearchEngine::buildQueries`. -/
structure ParseState where
  curQuery : Str
  proxWnd : Nat
  proxQueries : List ProximityQuery
  freeTextQueries : List Query
deriving DecidableEq

/-- The first branch of the loop body of `buildQueries` (a digit followed by an
opening bracket), applied to the digit `c`. -/
def openBlock (ks : KrovetzStemmer) (c : Char) (st : ParseState) : ParseState :=
  let proxWnd := c.toNat - '0'.toNat
  if st.curQuery ≠ [] then
    let freeTextQuery := Query.make ks st.curQuery
    if freeTextQuery.terms.length > 0 then
      ⟨[], proxWnd, st.proxQueries, st.freeTextQueries ++ [freeTextQuery]⟩
    else ⟨[], proxWnd, st.proxQueries, st.freeTextQueries⟩
  else ⟨st.curQuery, proxWnd, st.proxQueries, st.freeTextQueries⟩

/-- The second branch of the loop body of `buildQueries` (a closing bracket). -/
def closeBlock (ks : KrovetzStemmer) (st : ParseState) : ParseState :=
  if st.curQuery ≠ [] then
    let proxQ := ProximityQuery.make ks st.curQuery st.proxWnd
    if proxQ.terms.length > 0 then
      ⟨[], st.proxWnd, st.proxQueries ++ [proxQ], st.freeTextQueries⟩
    else ⟨[], st.proxWnd, st.proxQueries, st.freeTextQueries⟩
  else st

/-- The `for` loop of `buildQueries` over the characters from index `i` on. The
test `i < userQuestion.length()-1` is the presence of a next character; the
first branch skips that character (`i++`). -/
def buildQueriesLoop (ks : KrovetzStemmer) : List Char → ParseState → ParseState
  | [], st => st
  | [c], st =>
    if c = ')' then closeBlock ks st
    else ⟨st.curQuery ++ [c], st.proxWnd, st.proxQueries, st.freeTextQueries⟩
  | c :: c' :: rest, st =>
    if c.isDigit = true ∧ c' = '(' then buildQueriesLoop ks rest (openBlock ks c st)
    else if c = ')' then buildQueriesLoop ks (c' :: rest) (closeBlock ks st)
    else buildQueriesLoop ks (c' :: rest)
      ⟨st.curQuery ++ [c], st.proxWnd, st.proxQueries, st.freeTextQueries⟩

/-- The method `SearchEngine::buildQueries`, returning the two output lists. -/
def buildQueries (ks : KrovetzStemmer) (userQuestion : Str)
    (proxQueries : List ProximityQuery) (freeTextQueries : List Query) :
    List ProximityQuery × List Query :=
  let st := buildQueriesLoop ks userQuestion ⟨[], 0, proxQueries, freeTextQueries⟩
  if st.curQuery ≠ [] then
    (st.proxQueries, st.freeTextQueries ++ [Query.make ks st.curQuery])
  else (st.proxQueries, st.freeTextQueries)

/-- A digit immediately followed by an opening bracket occurs in the string. -/
def hasDigitParen : List Char → Bool
  | [] => false
  | [_] => false
  | c :: c' :: rest => (c.isDigit && decide (c' = '(')) || hasDigitParen (c' :: rest)

/-- The method `SearchEngine::intersect(vector<unsigned long>, vector<unsigned long>)`:
the two iterators are the remaining suffixes, `push_back` on the answer is the
head of the result. -/
def intersect : List Nat → List Nat → List Nat
  | [], _ => []
  | _ :: _, [] => []
  | a :: v1, b :: v2 =>
    if a = b then a :: intersect v1 v2
    else if a < b then intersect v1 (b :: v2)
    else intersect (a :: v1) v2
termination_by v1 v2 => v1.length + v2.length

/-! ## Proximity matching -/

/-- Conversion `unsigned long` to `long` (two's complement). -/
def toLong (x : Nat) : Int := if x < 2 ^ 63 then (x : Int) else (x : Int) - 2 ^ 64

/-- A `long` result reduced to the range of the type. Signed overflow is undefined
in the source; the model wraps, and every statement below says when it does not
occur. -/
def wrapLong (z : Int) : Int := (z + 2 ^ 63) % 2 ^ 64 - 2 ^ 63

/-- Conversion `long` to `unsigned long`, as in a comparison of mixed signedness. -/
def longToULong (z : Int) : Nat := (z % 2 ^ 64).toNat

/-- Addition of `unsigned long`. -/
def ulongAdd (a b : Nat) : Nat := (a + b) % 2 ^ 64

/-- The condition `pos2 - pos1 > 0 && pos2 - pos1 <= (proximityWnd+1)` on `long`
values `pos1`, `pos2` and an `unsigned long` window. -/
def proximityTest (pos1 pos2 : Int) (proximityWnd : Nat) : Bool :=
  decide (wrapLong (pos2 - pos1) > 0) &&
    decide (longToULong (wrapLong (pos2 - pos1)) ≤ ulongAdd proximityWnd 1)

/-- The inner loop of `findProximityPair` over the positions of `p2`. -/
def findProximityPairInner (pos1 : Int) (proximityWnd : Nat) : List Nat → Bool
  | [] => false
  | b :: rest =>
    if proximityTest pos1 (toLong b) proximityWnd then true
    else findProximityPairInner pos1 proximityWnd rest

/-- The outer loop of `findProximityPair` over the positions of `p1`. -/
def findProximityPairOuter (positions2 : List Nat) (proximityWnd : Nat) : List Nat → Bool
  | [] => false
  | a :: rest =>
    if findProximityPairInner (toLong a) proximityWnd positions2 then true
    else findProximityPairOuter positions2 proximityWnd rest

/-- The method `SearchEngine::findProximityPair`. -/
def findProximityPair (p1 p2 : Posting) (proximityWnd : Nat) : Bool :=
  findProximityPairOuter p2.positions proximityWnd p1.positions

/-! ## Ingestion -/

/-- The `for` loop of `Index::addText` from index `i` on: each token is added at the
current `pos`, and `pos++` runs after the call for every token but the first. -/
def Index.addTextLoop (idx : Index) (docID : Nat) : Nat → List Str → Nat → Index × Nat
  | _, [], pos => (idx, pos)
  | i, token :: rest, pos =>
    (idx.addTerm token docID pos).addTextLoop docID (i + 1) rest
      (if i > 0 then ulongAdd pos 1 else pos)

/-- The method `Index::addText(text, docID, pos)`, returning the index and the value of
the reference parameter `pos` after the call. -/
def Index.addText (ks : KrovetzStemmer) (idx : Index) (text : Str) (docID pos : Nat) :
    Index × Nat :=
  idx.addTextLoop docID 0 (tokenize ks text) pos

/-- The document-body branch of the read loop of `SearchEngine::buildFromFile`, over the
whitespace-separated tokens of one document body: `termPos++` and then
`m_index.addText(token, docID, termPos)`. -/
def readDocumentBody (ks : KrovetzStemmer) (docID : Nat) : List Str → Index → Nat → Index × Nat
  | [], idx, termPos => (idx, termPos)
  | token :: rest, idx, termPos =>
    readDocumentBody ks docID rest
      (idx.addText ks token docID (ulongAdd termPos 1)).1
      (idx.addText ks token docID (ulongAdd termPos 1)).2

/-- The index after reading document 1 with body `the quick fox` and document 2 with
body `quick fox jumps` (`termPos` is reset to 0 at each closing tag). -/
def exampleIndex (ks : KrovetzStemmer) : Index :=
  (readDocumentBody ks 2 [['q', 'u', 'i', 'c', 'k'], ['f', 'o', 'x'], ['j', 'u', 'm', 'p', 's']]
    (readDocumentBody ks 1 [['t', 'h', 'e'], ['q', 'u', 'i', 'c', 'k'], ['f', 'o', 'x']]
      Index.empty 0).1 0).1

/-! ## Boolean search -/

/-- The keys of a posting list in iteration order. -/
def postingKeys (postings : POSTING_LIST) : List Nat := postings.map Prod.fst

/-- The representation invariant of the posting lists of an index: a
`map<unsigned int, Posting>` iterates its keys in strictly ascending order and
every key is an `unsigned int`. -/
def Index.WF (idx : Index) : Prop :=
  ∀ e ∈ idx.m_terms, (postingKeys e.2.postings).Sorted (fun x y => x < y) ∧
    ∀ k ∈ postingKeys e.2.postings, k < 2 ^ 32

/-- The posting stored for `term` under key `docID`, if any. -/
def Index.postingOf (idx : Index) (term : Str) (docID : Nat) : Option Posting :=
  match (idx.getPostings term).1 with
  | some postings => mapFind docID postings
  | none => none

/-- The `while` loop of `SearchEngine::intersect(const POSTING_LIST*, const POSTING_LIST*)`
on the remaining entries of both maps. -/
def intersectPostingsLoop : POSTING_LIST → POSTING_LIST → List Nat
  | [], _ => []
  | _ :: _, [] => []
  | a :: p1, b :: p2 =>
    if a.1 = b.1 then a.1 :: intersectPostingsLoop p1 p2
    else if a.1 < b.1 then intersectPostingsLoop p1 (b :: p2)
    else intersectPostingsLoop (a :: p1) p2
termination_by p1 p2 => p1.length + p2.length

/-- The method `SearchEngine::intersect(const POSTING_LIST*, const POSTING_LIST*)`; a null
pointer is `none`. -/
def intersectPostings (p1 p2 : Option POSTING_LIST) : List Nat :=
  match p1, p2 with
  | some l1, some l2 => intersectPostingsLoop l1 l2
  | _, _ => []

/-- The inner loop of `SearchEngine::filterBy` ("check positioning") over the docIDs of
the intersection. The result is `none` where the source dereferences a null list
pointer or the end iterator returned by `find` (undefined behaviour). -/
def filterByPositions (pTerm1List pTerm2List : Option POSTING_LIST) (proximityWnd : Nat) :
    List Nat → Option (List Nat)
  | [] => some []
  | docID :: rest =>
    match pTerm1List, pTerm2List with
    | some l1, some l2 =>
      match mapFind (toUInt docID) l1, mapFind (toUInt docID) l2 with
      | some p1, some p2 =>
        match filterByPositions pTerm1List pTerm2List proximityWnd rest with
        | some r => some (if findProximityPair p1 p2 proximityWnd then docID :: r else r)
        | none => none
      | _, _ => none
    | _, _ => none

/-- The outer loop of `SearchEngine::filterBy` from index `i` on. The result is `none`
where the source reads `terms[0]` or `terms[1]` past the end of the term vector
(undefined behaviour). -/
def filterByLoop (idx : Index) : Nat → List ProximityQuery → List Nat → Option (List Nat)
  | _, [], combinedResults => some combinedResults
  | i, q :: rest, combinedResults =>
    match q.toQuery.terms with
    | t0 :: t1 :: _ =>
      match filterByPositions (idx.getPostings t0).1 (idx.getPostings t1).1 q.getProximityWnd
          (intersectPostings (idx.getPostings t0).1 (idx.getPostings t1).1) with
      | some curQueryResult =>
        filterByLoop idx (i + 1) rest
          (intersect (if i = 0 then curQueryResult else combinedResults) curQueryResult)
      | none => none
    | _ => none

/-- The method `SearchEngine::filterBy`. -/
def filterBy (idx : Index) (proxQueries : List ProximityQuery) : Option (List Nat) :=
  filterByLoop idx 0 proxQueries []

/-- The `for` loop of `SearchEngine::intersectWithQuery` over the terms from index `i` on. -/
def intersectWithQueryLoop (idx : Index) : Nat → List Str → List Nat → List Nat
  | _, [], intersection => intersection
  | i, term :: rest, intersection =>
    intersectWithQueryLoop idx (i + 1) rest
      (if i = 0 then intersectPostings (idx.getPostings term).1 (idx.getPostings term).1
        else intersect intersection
          (intersectPostings (idx.getPostings term).1 (idx.getPostings term).1))

/-- The method `SearchEngine::intersectWithQuery`. -/
def intersectWithQuery (idx : Index) (filterSet : List Nat) (freeTextQuery : Query) :
    List Nat :=
  if filterSet.length > 0 then
    intersect filterSet (intersectWithQueryLoop idx 0 freeTextQuery.terms [])
  else intersectWithQueryLoop idx 0 freeTextQuery.terms []

/-- The method `SearchEngine::booleanSearch` on the engine's index; `none` where
`filterBy` has undefined behaviour. -/
def booleanSearch (ks : KrovetzStemmer) (idx : Index) (query : Str) : Option (List Nat) :=
  if (buildQueries ks query [] []).1.length > 0 then
    match filterBy idx (buildQueries ks query [] []).1 with
    | some filteredSet =>
      if filteredSet.length > 0 then
        some ((buildQueries ks query [] []).2.foldl
          (fun fs q => intersectWithQuery idx fs q) filteredSet)
      else some filteredSet
    | none => none
  else
    some ((buildQueries ks query [] []).2.foldl (fun rs q => intersectWithQuery idx rs q) [])

/-- The document `docID` satisfies the proximity query `pq`: the first two terms of `pq`
both have a posting under key `docID`, and `findProximityPair` holds for these two
postings with the window of `pq`. -/
def ProximityQuery.satisfiedBy (idx : Index) (pq : ProximityQuery) (docID : Nat) : Prop :=
  ∃ t0 t1 tail p1 p2, pq.toQuery.terms = t0 :: t1 :: tail ∧
    idx.postingOf t0 docID = some p1 ∧ idx.postingOf t1 docID = some p2 ∧
    findProximityPair p1 p2 pq.getProximityWnd = true

/-- The first two loops of `SearchEngine::score`: all terms of the proximity queries
followed by all terms of the free-text queries, in one list. -/
def scoreAllTerms (proxQueries : List ProximityQuery) (freeTextQueries : List Query) :
    List Str :=
  (proxQueries.map (fun q => q.toQuery.terms)).flatten ++
    (freeTextQueries.map (fun q => q.terms)).flatten

/-! ## Ranked search -/

/-- The operations on `double` used by `SearchEngine::score` and by the key order of
`SCORES_LIST`. The scoring code is written over any such arithmetic; the statements
about score values interpret it in the real numbers (`realArith`). -/
structure Arith (F : Type) where
  ofNat : Nat → F
  add : F → F → F
  mul : F → F → F
  div : F → F → F
  log2 : F → F
  lt : F → F → Bool

/-- The expression `(1 + log2(tf))*(log2(N/df))` of `score`, with `N`, `df`, `tf` the
values before their `static_cast<double>`. -/
def termWeight {F : Type} (ar : Arith F) (N df tf : Nat) : F :=
  ar.mul (ar.add (ar.ofNat 1) (ar.log2 (ar.ofNat tf)))
    (ar.log2 (ar.div (ar.ofNat N) (ar.ofNat df)))

/-- The third loop of `SearchEngine::score` ("sum up weights of each term present in the
doc") over the remaining terms, carrying `score` and `atLeastOneTermInDoc`. -/
def scoreLoop {F : Type} (ar : Arith F) (idx : Index) (N docID : Nat) :
    List Str → F → Bool → Bool × F
  | [], sc, matched => (matched, sc)
  | t :: rest, sc, matched =>
    match (idx.getPostings t).1, (idx.getTermInfo t).1 with
    | some postings, some termInfo =>
      match mapFind (toUInt docID) postings with
      | some posting =>
        scoreLoop ar idx N docID rest (ar.add sc (termWeight ar N termInfo.df posting.tf)) true
      | none => scoreLoop ar idx N docID rest sc matched
    | _, _ => scoreLoop ar idx N docID rest sc matched

/-- The method `SearchEngine::score`, returning its result and the output parameter
`score`; `m_collectionDocIDs` and `m_index` are the engine's. -/
def score {F : Type} (ar : Arith F) (m_collectionDocIDs : List Nat) (idx : Index)
    (proxQueries : List ProximityQuery) (freeTextQueries : List Query) (docID : Nat) :
    Bool × F :=
  scoreLoop ar idx m_collectionDocIDs.length docID
    (scoreAllTerms proxQueries freeTextQueries) (ar.ofNat 0) false

/-- The call `scoresSet.insert(pair)` on a `multimap<double, unsigned long>`: the pair is
placed after every entry whose key is not greater than its key. -/
def multimapInsert {F : Type} (lt : F → F → Bool) (e : F × Nat) : List (F × Nat) → List (F × Nat)
  | [] => [e]
  | x :: rest => if lt e.1 x.1 then e :: x :: rest else x :: multimapInsert lt e rest

/-- The scoring loop of `SearchEngine::rankedSearch` over the remaining docIDs of
`searchSet`. -/
def rankedSearchLoop {F : Type} (ar : Arith F) (m_collectionDocIDs : List Nat) (idx : Index)
    (proxQueries : List ProximityQuery) (freeTextQueries : List Query) :
    List Nat → List (F × Nat) → List (F × Nat)
  | [], scoresSet => scoresSet
  | docID :: rest, scoresSet =>
    if (score ar m_collectionDocIDs idx proxQueries freeTextQueries docID).1 then
      rankedSearchLoop ar m_collectionDocIDs idx proxQueries freeTextQueries rest
        (multimapInsert ar.lt
          ((score ar m_collectionDocIDs idx proxQueries freeTextQueries docID).2, docID)
          scoresSet)
    else rankedSearchLoop ar m_collectionDocIDs idx proxQueries freeTextQueries rest scoresSet

/-- The candidate pool of `rankedSearch`: the result of `filterBy` when the query has
proximity sub-queries, the collection's docIDs otherwise. -/
def rankedSearchSet (m_collectionDocIDs : List Nat) (idx : Index)
    (proxQueries : List ProximityQuery) : Option (List Nat) :=
  if proxQueries.length > 0 then filterBy idx proxQueries else some m_collectionDocIDs

/-- The method `SearchEngine::rankedSearch`, the entries of the result in key order;
`none` where `filterBy` has undefined behaviour. -/
def rankedSearch {F : Type} (ar : Arith F) (ks : KrovetzStemmer) (m_collectionDocIDs : List Nat)
    (idx : Index) (query : Str) : Option (List (F × Nat)) :=
  match rankedSearchSet m_collectionDocIDs idx (buildQueries ks query [] []).1 with
  | some searchSet =>
    some (rankedSearchLoop ar m_collectionDocIDs idx (buildQueries ks query [] []).1
      (buildQueries ks query [] []).2 searchSet [])
  | none => none

/-- The arithmetic of the real numbers, `log2` being the logarithm to base 2. -/
noncomputable def realArith : Arith ℝ :=
  ⟨fun n => (n : ℝ), fun a b => a + b, fun a b => a * b, fun a b => a / b, Real.logb 2,
    fun a b => decide (a < b)⟩

/-- The weight of the specification: `(1 + log2(tf)) * log2(N / df)` over the reals. -/
noncomputable def specWeight (N df tf : Nat) : ℝ :=
  (1 + Real.logb 2 (tf : ℝ)) * Real.logb 2 ((N : ℝ) / (df : ℝ))

/-- The weight contributed by one entry `t` of the combined term list for document
`docID`, in the words of the specification: `specWeight N df(t) tf(t, docID)` when
`t` has a posting for the document, nothing otherwise. -/
noncomputable def specEntryWeight (idx : Index) (N docID : Nat) (t : Str) : Option ℝ :=
  match (idx.getTermInfo t).1 with
  | some termInfo =>
    match mapFind (toUInt docID) termInfo.postings with
    | some posting => some (specWeight N termInfo.df posting.tf)
    | none => none
  | none => none

/-- The score of the specification: the sum of the entry weights over the combined term
list, duplicates kept. -/
noncomputable def specScore (idx : Index) (N docID : Nat) (allTerms : List Str) : ℝ :=
  (allTerms.filterMap (specEntryWeight idx N docID)).sum

/-! ## Ingestion of question/answer records -/

/-- The constant `JSON_TAG_DOC_OPEN`. -/
def JSON_TAG_DOC_OPEN : Str := ['\x7b', '"', 'c', 'o', 'n', 't', 'e', 'x', 't', '"', ':']

/-- The constant `JSON_TAG_DOC_CLOSE`. -/
def JSON_TAG_DOC_CLOSE : Str := ['"', ',']

/-- The constant `JSON_TAG_QUESTION_START`. -/
def JSON_TAG_QUESTION_START : Str := ['"', 'q', 'u', 'e', 's', 't', 'i', 'o', 'n', '"', ':']

/-- The constant `JSON_TAG_QUESTION_STOP`. -/
def JSON_TAG_QUESTION_STOP : Str := ['"', 'i', 'd', '"', ':']

/-- The constant `JSON_TAG_ANSWER_START`. -/
def JSON_TAG_ANSWER_START : Str := ['"', 't', 'e', 'x', 't', '"', ':']

/-- The constant `JSON_TAG_ANSWER_STOP`. -/
def JSON_TAG_ANSWER_STOP : Str := ['"', '\x7d', ']', ',']

/-- The constant `JSON_TAG_ANSWER_STOP2`. -/
def JSON_TAG_ANSWER_STOP2 : Str := ['"', '\x7d', ',']

/-- The pattern occurs in the text at index 0. -/
def startsWith : Str → Str → Bool
  | [], _ => true
  | _ :: _, [] => false
  | p :: ps, c :: cs => decide (p = c) && startsWith ps cs

/-- The test `text.find(pattern) != npos`. -/
def containsSub (pattern : Str) : Str → Bool
  | [] => startsWith pattern []
  | c :: cs => startsWith pattern (c :: cs) || containsSub pattern cs

/-- The test `text.rfind(pattern) == text.length() - pattern.length()` for a text at
least as long as the pattern: the text ends with the pattern. -/
def endsWith (pattern text : Str) : Bool := startsWith pattern.reverse text.reverse

/-- The locals of `SearchEngine::buildFromSquadData` that outlive one token, with the
engine's collection docIDs and index. -/
structure SquadState where
  docID : Nat
  termPos : Nat
  pTextDoc : Bool
  processingQuestion : Bool
  processingAnswer : Bool
  m_collectionDocIDs : List Nat
  m_index : Index
deriving DecidableEq

/-- The loops `m_index.addTerm(tokens[i], fakeDocID, posUnused)` with `fakeDocID = 0` and
`posUnused = 0`. -/
def addSentinelTerms (idx : Index) (tokens : List Str) : Index :=
  tokens.foldl (fun i t => i.addTerm t 0 0) idx

/-- The body of the token loop of `SearchEngine::buildFromSquadData` for one
whitespace-separated token (writes to the tokenized file are not part of the state).
The result is `none` where the source reads `token[token.length()-3]` of a
two-character token (undefined behaviour). -/
def squadToken (ks : KrovetzStemmer) (tokenizeCollection : Bool) (st : SquadState)
    (token : Str) : Option SquadState :=
  if startsWith JSON_TAG_DOC_OPEN token || startsWith JSON_TAG_DOC_OPEN token.tail then
    some { st with docID := ulongAdd st.docID 1, pTextDoc := true }
  else if st.pTextDoc = true ∧ 2 ≤ token.length ∧ endsWith JSON_TAG_DOC_CLOSE token = true
      ∧ token.length = 2 then none
  else if st.pTextDoc = true ∧ 2 ≤ token.length ∧ endsWith JSON_TAG_DOC_CLOSE token = true
      ∧ token[token.length - 3]? ≠ some '\\' then
    some { st with
      termPos := 0
      pTextDoc := false
      m_collectionDocIDs := st.m_collectionDocIDs ++ [st.docID]
      m_index := (st.m_index.addText ks token st.docID (ulongAdd st.termPos 1)).1 }
  else if st.pTextDoc = true then
    some { st with
      termPos := (st.m_index.addText ks token st.docID (ulongAdd st.termPos 1)).2
      m_index := (st.m_index.addText ks token st.docID (ulongAdd st.termPos 1)).1 }
  else if tokenizeCollection = true then
    if containsSub JSON_TAG_QUESTION_START token then
      some { st with processingQuestion := true }
    else if st.processingQuestion = true ∧ containsSub JSON_TAG_QUESTION_STOP token = true then
      some { st with processingQuestion := false }
    else if st.processingQuestion = true then
      some { st with m_index := addSentinelTerms st.m_index (tokenize ks token) }
    else if containsSub JSON_TAG_ANSWER_START token then
      some { st with processingAnswer := true }
    else if st.processingAnswer = true ∧ 4 ≤ token.length
        ∧ endsWith JSON_TAG_ANSWER_STOP token = true then
      some { st with
        processingAnswer := false
        m_index := addSentinelTerms st.m_index (tokenize ks token) }
    else if st.processingAnswer = true ∧ 3 ≤ token.length
        ∧ endsWith JSON_TAG_ANSWER_STOP2 token = true then
      some { st with
        processingAnswer := false
        m_index := addSentinelTerms st.m_index (tokenize ks token) }
    else if st.processingAnswer = true then
      some { st with m_index := addSentinelTerms st.m_index (tokenize ks token) }
    else some st
  else some st

/-- The token loop of `buildFromSquadData` over the remaining tokens of the file. -/
def squadTokens (ks : KrovetzStemmer) (tokenizeCollection : Bool) :
    List Str → SquadState → Option SquadState
  | [], st => some st
  | token :: rest, st =>
    match squadToken ks tokenizeCollection st token with
    | some st' => squadTokens ks tokenizeCollection rest st'
    | none => none

/-- The method `SearchEngine::buildFromSquadData` on the whitespace-separated tokens of the
file, from the engine's collection docIDs and index to those after the call. -/
def buildFromSquadData (ks : KrovetzStemmer) (tokenizeCollection : Bool) (tokens : List Str)
    (m_collectionDocIDs : List Nat) (m_index : Index) : Option (List Nat × Index) :=
  match squadTokens ks tokenizeCollection tokens
      ⟨0, 0, false, false, false, m_collectionDocIDs, m_index⟩ with
  | some st => some (st.m_collectionDocIDs, st.m_index)
  | none => none

/-! # Properties -/

/-! ## Lemmas on the map model -/

theorem mapFind_mapInsert_self {K V : Type} [DecidableEq K] [LT K]
    [DecidableRel (fun a b : K => a < b)] (k : K) (v : V) (m : List (K × V)) :
    mapFind k (mapInsert k v m) = some v := by
  induction m with
  | nil => simp [mapInsert, mapFind]
  | cons hd tl ih =>
    obtain ⟨k', v'⟩ := hd
    by_cases h1 : k = k'
    · simp [mapInsert, mapFind, h1]
    · by_cases h2 : k < k'
      · simp [mapInsert, mapFind, h1, h2]
      · simp [mapInsert, mapFind, h1, h2, ih]

theorem mapFind_mapInsert_ne {K V : Type} [DecidableEq K] [LT K]
    [DecidableRel (fun a b : K => a < b)] (k k0 : K) (v : V) (m : List (K × V))
    (hne : k0 ≠ k) : mapFind k0 (mapInsert k v m) = mapFind k0 m := by
  induction m with
  | nil => simp [mapInsert, mapFind, hne]
  | cons hd tl ih =>
    obtain ⟨k', v'⟩ := hd
    by_cases h1 : k = k'
    · subst h1
      simp [mapInsert, mapFind, hne]
    · by_cases h2 : k < k'
      · simp [mapInsert, mapFind, h1, h2, hne]
      · simp [mapInsert, mapFind, h1, h2, ih]

theorem mem_mapInsert {K V : Type} [DecidableEq K] [LT K]
    [DecidableRel (fun a b : K => a < b)] (k : K) (v : V) (m : List (K × V))
    (x : K × V) (hx : x ∈ mapInsert k v m) : x = (k, v) ∨ x ∈ m := by
  induction m with
  | nil => simpa [mapInsert] using hx
  | cons hd tl ih =>
    obtain ⟨k', v'⟩ := hd
    by_cases h1 : k = k'
    · simp only [mapInsert, h1, if_true, List.mem_cons] at hx
      rcases hx with hx | hx
      · left; rw [hx, h1]
      · right; exact List.mem_cons_of_mem _ hx
    · by_cases h2 : k < k'
      · simp only [mapInsert, h1, h2, if_true, if_false, List.mem_cons] at hx
        rcases hx with hx | hx | hx
        · left; exact hx
        · right; rw [hx]; exact List.mem_cons_self _ _
        · right; exact List.mem_cons_of_mem _ hx
      · simp only [mapInsert, h1, h2, if_false, List.mem_cons] at hx
        rcases hx with hx | hx
        · right; rw [hx]; exact List.mem_cons_self _ _
        · rcases ih hx with h | h
          · left; exact h
          · right; exact List.mem_cons_of_mem _ h

theorem mem_of_mapFind {K V : Type} [DecidableEq K] (k : K) (v : V) (m : List (K × V))
    (h : mapFind k m = some v) : (k, v) ∈ m := by
  induction m with
  | nil => simp [mapFind] at h
  | cons hd tl ih =>
    obtain ⟨k', v'⟩ := hd
    by_cases h1 : k = k'
    · simp only [mapFind, h1, if_true, Option.some.injEq] at h
      rw [h1, h]; exact List.mem_cons_self _ _
    · simp only [mapFind, h1, if_false] at h
      exact List.mem_cons_of_mem _ (ih h)

/-! ## The index -/

theorem postingAt_tf (postings : POSTING_LIST) (key : Nat)
    (h : ∀ d p, (d, p) ∈ postings → p.tf = p.positions.length) :
    (postingAt postings key).tf = (postingAt postings key).positions.length := by
  unfold postingAt
  cases hf : mapFind key postings with
  | none => rfl
  | some p => exact h key p (mem_of_mapFind key p postings hf)

theorem addTerm_preserves_invariant (idx : Index) (term : Str) (docID pos : Nat)
    (h : idx.PostingInvariant) : (idx.addTerm term docID pos).PostingInvariant := by
  intro t ti hmem
  unfold Index.addTerm at hmem
  rcases mem_mapInsert _ _ _ _ hmem with heq | hold
  · have hti := (Prod.mk.inj heq).2
    subst hti
    refine ⟨rfl, ?_⟩
    intro d p hp
    have hprev : ∀ d p, (d, p) ∈ (match mapFind term idx.m_terms with
        | some ti => ti
        | none => (⟨[], 0, []⟩ : TermInfo)).postings → p.tf = p.positions.length := by
      cases hf : mapFind term idx.m_terms with
      | none => intro d p hdp; simp at hdp
      | some ti0 => exact (h term ti0 (mem_of_mapFind term ti0 _ hf)).2
    rcases mem_mapInsert _ _ _ _ hp with hnew | hold
    · have hp2 := (Prod.mk.inj hnew).2
      subst hp2
      simp [postingAt_tf _ _ hprev]
    · exact hprev d p hold
  · exact h t ti hold

theorem addTerms_preserves_invariant (calls : List AddTermCall) (idx : Index)
    (h : idx.PostingInvariant) : (idx.addTerms calls).PostingInvariant := by
  induction calls generalizing idx with
  | nil => exact h
  | cons c cs ih =>
    exact ih (idx.addTerm c.term c.docID c.pos) (addTerm_preserves_invariant idx _ _ _ h)

/-- Claim C1. After any finite sequence of `addTerm` calls starting from the empty index,
for every indexed term `t` (with stored `TermInfo` `ti`) and every docID `d` in the
posting list of `t` (with stored posting `p`), `p.tf` equals the length of
`p.positions`, and `ti.df` equals the number of postings of `t`. -/
theorem addTerms_posting_invariant (calls : List AddTermCall) (t : Str) (ti : TermInfo)
    (d : Nat) (p : Posting)
    (hget : ((Index.empty.addTerms calls).getTermInfo t).1 = some ti)
    (hp : mapFind d ti.postings = some p) :
    p.tf = p.positions.length ∧ ti.df = ti.postings.length := by
  have hinv : (Index.empty.addTerms calls).PostingInvariant :=
    addTerms_preserves_invariant calls Index.empty (by intro t ti hm; simp [Index.empty] at hm)
  have hfind : mapFind t (Index.empty.addTerms calls).m_terms = some ti := by
    unfold Index.getTermInfo at hget
    cases hf : mapFind t (Index.empty.addTerms calls).m_terms with
    | none => rw [hf] at hget; simp at hget
    | some ti0 => rw [hf] at hget; simpa using hget
  have h := hinv t ti (mem_of_mapFind t ti _ hfind)
  exact ⟨h.2 d p (mem_of_mapFind d p _ hp), h.1⟩

/-- Witness for C1: the term x added twice to document 1 and once to document 2. -/
theorem addTerms_posting_invariant_witness :
    ((Index.empty.addTerms [⟨['x'], 1, 5⟩, ⟨['x'], 2, 1⟩, ⟨['x'], 1, 7⟩]).getTermInfo ['x']).1
        = some ⟨['x'], 2, [(1, ⟨1, 2, [5, 7]⟩), (2, ⟨2, 1, [1]⟩)]⟩ ∧
      mapFind 1 [(1, (⟨1, 2, [5, 7]⟩ : Posting)), (2, ⟨2, 1, [1]⟩)] = some ⟨1, 2, [5, 7]⟩ ∧
      (2 = [5, 7].length ∧ 2 = [(1, (⟨1, 2, [5, 7]⟩ : Posting)), (2, ⟨2, 1, [1]⟩)].length) :=
  ⟨by decide, by decide,
    addTerms_posting_invariant [⟨['x'], 1, 5⟩, ⟨['x'], 2, 1⟩, ⟨['x'], 1, 7⟩] ['x']
      ⟨['x'], 2, [(1, ⟨1, 2, [5, 7]⟩), (2, ⟨2, 1, [1]⟩)]⟩ 1 ⟨1, 2, [5, 7]⟩
      (by decide) (by decide)⟩

/-! ### One `addTerm` call -/

/-- After `addTerm(t, d, p)` the term `t` is present and its posting list is the
previous one (empty if `t` was absent) with the posting under key `(unsigned int) d`
replaced by: `docID = d`, the previous positions under that key followed by `p`, and
the previous `tf` under that key plus one (a fresh posting having `tf = 0` and no
positions). -/
theorem addTerm_getPostings (idx : Index) (t : Str) (d p : Nat) :
    ((idx.addTerm t d p).getPostings t).1 =
      some (mapInsert (toUInt d)
        ⟨d, (postingAt (((idx.getPostings t).1).getD []) (toUInt d)).tf + 1,
          (postingAt (((idx.getPostings t).1).getD []) (toUInt d)).positions ++ [p]⟩
        (((idx.getPostings t).1).getD [])) := by
  unfold Index.getPostings Index.addTerm
  simp only [mapFind_mapInsert_self]
  cases hf : mapFind t idx.m_terms <;> rfl

/-- The posting stored under key `(unsigned int) d` after `addTerm(t, d, p)`. -/
theorem addTerm_posting (idx : Index) (t : Str) (d p : Nat) (pl : POSTING_LIST)
    (h : ((idx.addTerm t d p).getPostings t).1 = some pl) :
    mapFind (toUInt d) pl =
      some ⟨d, (postingAt (((idx.getPostings t).1).getD []) (toUInt d)).tf + 1,
          (postingAt (((idx.getPostings t).1).getD []) (toUInt d)).positions ++ [p]⟩ := by
  rw [addTerm_getPostings] at h
  have h2 := Option.some.inj h
  rw [← h2, mapFind_mapInsert_self]

/-- Claim C2, failing input. The calls `addTerm(x, 1, 5)` and `addTerm(x, 4294967297, 7)` on the
empty index: the two docIDs convert to the same `unsigned int` key 1, so the posting
found for document 1 holds positions `[5, 7]`, `tf = 2` and `docID = 4294967297`,
whereas the only position passed for `(x, 1)` is 5 and none of the positions passed
for `(x, 4294967297)` is found under that docID. -/
theorem addTerm_docID_key_collision :
    ((Index.empty.addTerms [⟨['x'], 1, 5⟩, ⟨['x'], 4294967297, 7⟩]).getPostings ['x']).1
        = some [(1, ⟨4294967297, 2, [5, 7]⟩)] ∧
      positionsPassed ['x'] 1 [⟨['x'], 1, 5⟩, ⟨['x'], 4294967297, 7⟩] = [5] ∧
      mapFind 4294967297 [(1, (⟨4294967297, 2, [5, 7]⟩ : Posting))] = none := by
  decide

/-! ### Lookups -/

theorem addTerm_mapFind_eq_none (idx : Index) (t t0 : Str) (d p : Nat) :
    mapFind t0 (idx.addTerm t d p).m_terms = none ↔
      (t ≠ t0 ∧ mapFind t0 idx.m_terms = none) := by
  unfold Index.addTerm
  by_cases h : t0 = t
  · subst h
    simp [mapFind_mapInsert_self]
  · rw [mapFind_mapInsert_ne _ _ _ _ h]
    constructor
    · intro h2; exact ⟨fun e => h e.symm, h2⟩
    · intro h2; exact h2.2

theorem addTerms_mapFind_eq_none (calls : List AddTermCall) (idx : Index) (t0 : Str) :
    mapFind t0 (idx.addTerms calls).m_terms = none ↔
      (mapFind t0 idx.m_terms = none ∧ ∀ c ∈ calls, c.term ≠ t0) := by
  induction calls generalizing idx with
  | nil => simp [Index.addTerms]
  | cons c cs ih =>
    have h := ih (idx.addTerm c.term c.docID c.pos)
    simp only [Index.addTerms, List.foldl_cons] at h ⊢
    rw [h, addTerm_mapFind_eq_none]
    simp only [List.mem_cons, forall_eq_or_imp]
    tauto

theorem getTermInfo_fst (idx : Index) (t : Str) :
    (idx.getTermInfo t).1 = mapFind t idx.m_terms := by
  unfold Index.getTermInfo
  cases mapFind t idx.m_terms <;> rfl

theorem getPostings_fst (idx : Index) (t : Str) :
    (idx.getPostings t).1 = (mapFind t idx.m_terms).map TermInfo.postings := by
  unfold Index.getPostings
  cases mapFind t idx.m_terms <;> rfl

theorem getTermInfo_snd (idx : Index) (t : Str) : (idx.getTermInfo t).2 = idx := by
  unfold Index.getTermInfo
  cases mapFind t idx.m_terms <;> rfl

theorem getPostings_snd (idx : Index) (t : Str) : (idx.getPostings t).2 = idx := by
  unfold Index.getPostings
  cases mapFind t idx.m_terms <;> rfl

/-- Claim C3. On an index built by a sequence of `addTerm` calls, `getPostings(t)` and
`getTermInfo(t)` return none exactly when no call was made with term `t`; otherwise
they return the `TermInfo` stored under `t`, respectively its posting list; and the
index after either lookup is the index before it. -/
theorem lookups_absent_iff_never_added (calls : List AddTermCall) (t : Str) :
    ((((Index.empty.addTerms calls).getPostings t).1 = none) ↔ (∀ c ∈ calls, c.term ≠ t)) ∧
    ((((Index.empty.addTerms calls).getTermInfo t).1 = none) ↔ (∀ c ∈ calls, c.term ≠ t)) ∧
    ((Index.empty.addTerms calls).getTermInfo t).1
      = mapFind t (Index.empty.addTerms calls).m_terms ∧
    ((Index.empty.addTerms calls).getPostings t).1
      = (((Index.empty.addTerms calls).getTermInfo t).1).map TermInfo.postings ∧
    ((Index.empty.addTerms calls).getPostings t).2 = Index.empty.addTerms calls ∧
    ((Index.empty.addTerms calls).getTermInfo t).2 = Index.empty.addTerms calls := by
  have hnone := addTerms_mapFind_eq_none calls Index.empty t
  refine ⟨?_, ?_, getTermInfo_fst _ _, ?_, getPostings_snd _ _, getTermInfo_snd _ _⟩
  · rw [getPostings_fst, Option.map_eq_none', hnone]
    simp [Index.empty, mapFind]
  · rw [getTermInfo_fst, hnone]
    simp [Index.empty, mapFind]
  · rw [getPostings_fst, getTermInfo_fst]

/-! ### Position lists after a call sequence -/

theorem positionsOf_addTerm (idx : Index) (t t0 : Str) (d d0 p : Nat) :
    (idx.addTerm t d p).positionsOf t0 d0 =
      if t = t0 ∧ toUInt d = toUInt d0 then idx.positionsOf t0 d0 ++ [p]
      else idx.positionsOf t0 d0 := by
  by_cases ht : t = t0
  · subst ht
    unfold Index.positionsOf
    rw [addTerm_getPostings]
    by_cases hd : toUInt d = toUInt d0
    · rw [if_pos ⟨rfl, hd⟩, ← hd]
      simp only [postingAt, mapFind_mapInsert_self]
      cases hg : (idx.getPostings t).1 <;> rfl
    · rw [if_neg (fun h => hd h.2)]
      simp only [postingAt, mapFind_mapInsert_ne _ _ _ _ (fun e => hd e.symm)]
      cases hg : (idx.getPostings t).1 with
      | none => simp [mapFind]
      | some pl => simp
  · rw [if_neg (fun h => ht h.1)]
    unfold Index.positionsOf
    rw [getPostings_fst, getPostings_fst]
    unfold Index.addTerm
    rw [mapFind_mapInsert_ne _ _ _ _ (fun e => ht e.symm)]

/-- The position list found for `(t, d)` after a call sequence is the list found before
it followed by the positions passed for `t` under the key of `d`, in call order. -/
theorem positionsOf_addTerms (calls : List AddTermCall) (idx : Index) (t : Str) (d : Nat) :
    (idx.addTerms calls).positionsOf t d =
      idx.positionsOf t d ++ positionsPassedForKey t d calls := by
  induction calls generalizing idx with
  | nil => simp [Index.addTerms, positionsPassedForKey]
  | cons c cs ih =>
    have h := ih (idx.addTerm c.term c.docID c.pos)
    simp only [Index.addTerms, List.foldl_cons] at h ⊢
    rw [h, positionsOf_addTerm]
    by_cases hc : c.term = t ∧ toUInt c.docID = toUInt d
    · simp [positionsPassedForKey, hc]
    · simp [positionsPassedForKey, hc]

/-- With all docIDs below `2 ^ 32` the position list of `(t, d)` after a call sequence
from the empty index is exactly the positions passed for `(t, d)`, in call order. -/
theorem positionsOf_addTerms_small (calls : List AddTermCall) (t : Str) (d : Nat)
    (hd : d < 2 ^ 32) (hcalls : ∀ c ∈ calls, c.docID < 2 ^ 32) :
    (Index.empty.addTerms calls).positionsOf t d = positionsPassed t d calls := by
  rw [positionsOf_addTerms]
  have h0 : Index.empty.positionsOf t d = [] := by
    simp [Index.positionsOf, Index.getPostings, Index.empty, mapFind]
  rw [h0, List.nil_append]
  unfold positionsPassedForKey positionsPassed
  congr 1
  apply List.filter_congr
  intro c hc
  have h1 : toUInt c.docID = c.docID := Nat.mod_eq_of_lt (hcalls c hc)
  have h2 : toUInt d = d := Nat.mod_eq_of_lt hd
  rw [h1, h2]

/-! ## Merge intersection -/

theorem intersect_nil_left (B : List Nat) : intersect [] B = [] := by
  simp [intersect]

theorem intersect_nil_right (A : List Nat) : intersect A [] = [] := by
  cases A <;> simp [intersect]

theorem intersect_cons_eq (a : Nat) (A B : List Nat) :
    intersect (a :: A) (a :: B) = a :: intersect A B := by
  simp [intersect]

theorem intersect_cons_lt (a b : Nat) (A B : List Nat) (h : a < b) :
    intersect (a :: A) (b :: B) = intersect A (b :: B) := by
  have hne : a ≠ b := Nat.ne_of_lt h
  simp [intersect, hne, h]

theorem intersect_cons_gt (a b : Nat) (A B : List Nat) (h : b < a) :
    intersect (a :: A) (b :: B) = intersect (a :: A) B := by
  have hne : a ≠ b := Nat.ne_of_gt h
  have hnlt : ¬ a < b := Nat.not_lt_of_gt h
  simp [intersect, hne, hnlt]

/-- On strictly ascending inputs the merge keeps exactly the elements of the first
sequence that occur in the second. -/
theorem intersect_eq_filter (A B : List Nat)
    (hA : A.Sorted (fun x y => x < y)) (hB : B.Sorted (fun x y => x < y)) :
    intersect A B = A.filter (fun x => decide (x ∈ B)) := by
  induction A, B using intersect.induct with
  | case1 B => simp [intersect]
  | case2 a A => simp [intersect_nil_right]
  | case3 A a B ih =>
    have hA2 := List.sorted_cons.mp hA
    have hB2 := List.sorted_cons.mp hB
    rw [intersect_cons_eq, ih hA2.2 hB2.2]
    have hcongr : A.filter (fun x => decide (x ∈ a :: B)) = A.filter (fun x => decide (x ∈ B)) := by
      apply List.filter_congr
      intro x hx
      have hlt : a < x := hA2.1 x hx
      have hne : x ≠ a := Nat.ne_of_gt hlt
      simp [hne]
    have hpos : decide (a ∈ a :: B) = true := by simp
    rw [List.filter_cons, if_pos hpos, hcongr]
  | case4 a A b B hne hlt ih =>
    have hA2 := List.sorted_cons.mp hA
    have hB2 := List.sorted_cons.mp hB
    rw [intersect_cons_lt a b A B hlt, ih hA2.2 hB]
    have hnotin : a ∉ b :: B := by
      intro hmem
      rcases List.mem_cons.mp hmem with h | h
      · exact hne h
      · exact absurd (hB2.1 a h) (Nat.lt_asymm hlt)
    have hneg : ¬ decide (a ∈ b :: B) = true := by simpa using hnotin
    rw [List.filter_cons, if_neg hneg]
  | case5 a A b B hne hnlt ih =>
    have hB2 := List.sorted_cons.mp hB
    have hgt : b < a := Nat.lt_of_le_of_ne (Nat.le_of_not_lt hnlt) (fun e => hne e.symm)
    have hA2 := List.sorted_cons.mp hA
    rw [intersect_cons_gt a b A B hgt, ih hA hB2.2]
    apply List.filter_congr
    intro x hx
    have hbx : b < x := by
      rcases List.mem_cons.mp hx with h | h
      · rw [h]; exact hgt
      · exact Nat.lt_trans hgt (hA2.1 x h)
    have hxb : x ≠ b := Nat.ne_of_gt hbx
    simp [hxb]

/-- Claim C4. For strictly ascending docID sequences `A` and `B`, `intersect A B` is
strictly ascending, each of its elements is in `A` and in `B`, it contains every
element common to `A` and `B`, and it equals `A` restricted to the elements that
occur in `B`. -/
theorem intersect_correct (A B : List Nat)
    (hA : A.Sorted (fun x y => x < y)) (hB : B.Sorted (fun x y => x < y)) :
    (intersect A B).Sorted (fun x y => x < y) ∧
      (∀ x, x ∈ intersect A B → x ∈ A ∧ x ∈ B) ∧
      (∀ x, x ∈ A → x ∈ B → x ∈ intersect A B) ∧
      intersect A B = A.filter (fun x => decide (x ∈ B)) := by
  have heq := intersect_eq_filter A B hA hB
  refine ⟨?_, ?_, ?_, heq⟩
  · rw [heq]; exact List.Sorted.filter _ hA
  · intro x hx
    rw [heq, List.mem_filter] at hx
    exact ⟨hx.1, by simpa using hx.2⟩
  · intro x hxA hxB
    rw [heq, List.mem_filter]
    exact ⟨hxA, by simpa using hxB⟩

/-- Witness for C4 at `A = [1, 3, 5, 7]`, `B = [3, 4, 7, 9]`. -/
theorem intersect_correct_witness :
    [1, 3, 5, 7].Sorted (fun x y : Nat => x < y) ∧ [3, 4, 7, 9].Sorted (fun x y : Nat => x < y) ∧
      intersect [1, 3, 5, 7] [3, 4, 7, 9] = [3, 7] ∧
      ((intersect [1, 3, 5, 7] [3, 4, 7, 9]).Sorted (fun x y => x < y) ∧
        (∀ x, x ∈ intersect [1, 3, 5, 7] [3, 4, 7, 9] → x ∈ [1, 3, 5, 7] ∧ x ∈ [3, 4, 7, 9]) ∧
        (∀ x, x ∈ [1, 3, 5, 7] → x ∈ [3, 4, 7, 9] → x ∈ intersect [1, 3, 5, 7] [3, 4, 7, 9]) ∧
        intersect [1, 3, 5, 7] [3, 4, 7, 9]
          = [1, 3, 5, 7].filter (fun x => decide (x ∈ [3, 4, 7, 9]))) :=
  ⟨by decide, by decide, by simp [intersect],
    intersect_correct [1, 3, 5, 7] [3, 4, 7, 9] (by decide) (by decide)⟩

/-- Claim C5. For all docID sequences `A` and `B`, in particular all sorted unique ones,
`intersect A B` and `intersect B A` are the same sequence. -/
theorem intersect_comm (A B : List Nat) : intersect A B = intersect B A := by
  induction A, B using intersect.induct with
  | case1 B => rw [intersect_nil_left, intersect_nil_right]
  | case2 a A => rw [intersect_nil_left, intersect_nil_right]
  | case3 A a B ih => rw [intersect_cons_eq, intersect_cons_eq, ih]
  | case4 a A b B hne hlt ih =>
    rw [intersect_cons_lt a b A B hlt, intersect_cons_gt b a B A hlt, ih]
  | case5 a A b B hne hnlt ih =>
    have hgt : b < a := Nat.lt_of_le_of_ne (Nat.le_of_not_lt hnlt) (fun e => hne e.symm)
    rw [intersect_cons_gt a b A B hgt, intersect_cons_lt b a B A hgt, ih]

/-- Claim C6. For every docID sequence `A`, `intersect A A` is `A`. -/
theorem intersect_self (A : List Nat) : intersect A A = A := by
  induction A with
  | nil => exact intersect_nil_left []
  | cons a A ih => rw [intersect_cons_eq, ih]

/-! ## Proximity matching -/

theorem findProximityPairInner_eq_true (pos1 : Int) (w : Nat) (positions2 : List Nat) :
    findProximityPairInner pos1 w positions2 = true ↔
      ∃ b ∈ positions2, proximityTest pos1 (toLong b) w = true := by
  induction positions2 with
  | nil => simp [findProximityPairInner]
  | cons b rest ih =>
    by_cases h : proximityTest pos1 (toLong b) w = true
    · simp [findProximityPairInner, h]
    · simp [findProximityPairInner, h, ih]

theorem findProximityPairOuter_eq_true (positions2 : List Nat) (w : Nat)
    (positions1 : List Nat) :
    findProximityPairOuter positions2 w positions1 = true ↔
      ∃ a ∈ positions1, ∃ b ∈ positions2, proximityTest (toLong a) (toLong b) w = true := by
  induction positions1 with
  | nil => simp [findProximityPairOuter]
  | cons a rest ih =>
    by_cases h : findProximityPairInner (toLong a) w positions2 = true
    · have h2 := (findProximityPairInner_eq_true (toLong a) w positions2).mp h
      simp [findProximityPairOuter, h, h2]
    · have h2 : ¬ ∃ b ∈ positions2, proximityTest (toLong a) (toLong b) w = true :=
        fun hex => h ((findProximityPairInner_eq_true (toLong a) w positions2).mpr hex)
      have hstep : findProximityPairOuter positions2 w (a :: rest)
          = findProximityPairOuter positions2 w rest := by
        simp [findProximityPairOuter, h]
      rw [hstep, ih]
      simp only [List.mem_cons, exists_eq_or_imp]
      constructor
      · intro hr; exact Or.inr hr
      · intro hr
        rcases hr with hr | hr
        · exact absurd hr h2
        · exact hr

/-- Where no conversion changes a value and `proximityWnd + 1` does not wrap, the
condition of the source is the condition on integers. -/
theorem proximityTest_eq_true (a b w : Nat) (ha : a < 2 ^ 63) (hb : b < 2 ^ 63)
    (hw : w < 2 ^ 64 - 1) :
    proximityTest (toLong a) (toLong b) w = true ↔
      ((0 : Int) < (b : Int) - (a : Int) ∧ (b : Int) - (a : Int) ≤ (w : Int) + 1) := by
  have hta : toLong a = (a : Int) := by unfold toLong; rw [if_pos ha]
  have htb : toLong b = (b : Int) := by unfold toLong; rw [if_pos hb]
  have hwrap : wrapLong ((b : Int) - (a : Int)) = (b : Int) - (a : Int) := by
    unfold wrapLong
    omega
  have hadd : ulongAdd w 1 = w + 1 := by
    unfold ulongAdd
    omega
  unfold proximityTest
  rw [hta, htb, hwrap, hadd]
  unfold longToULong
  simp only [Bool.and_eq_true, decide_eq_true_eq, gt_iff_lt]
  constructor
  · intro h
    refine ⟨h.1, ?_⟩
    have h2 := h.2
    omega
  · intro h
    refine ⟨h.1, ?_⟩
    omega

/-- For positions below `2 ^ 63` and a window below `2 ^ 64 - 1` the result of
`findProximityPair` is the existence of an ordered pair within the window. -/
theorem findProximityPair_eq_true_iff (p1 p2 : Posting) (w : Nat)
    (h1 : ∀ a ∈ p1.positions, a < 2 ^ 63) (h2 : ∀ b ∈ p2.positions, b < 2 ^ 63)
    (hw : w < 2 ^ 64 - 1) :
    findProximityPair p1 p2 w = true ↔
      ∃ a ∈ p1.positions, ∃ b ∈ p2.positions,
        (0 : Int) < (b : Int) - (a : Int) ∧ (b : Int) - (a : Int) ≤ (w : Int) + 1 := by
  unfold findProximityPair
  rw [findProximityPairOuter_eq_true]
  constructor
  · rintro ⟨a, ha, b, hb, h⟩
    exact ⟨a, ha, b, hb, (proximityTest_eq_true a b w (h1 a ha) (h2 b hb) hw).mp h⟩
  · rintro ⟨a, ha, b, hb, h⟩
    exact ⟨a, ha, b, hb, (proximityTest_eq_true a b w (h1 a ha) (h2 b hb) hw).mpr h⟩

/-- Claim C7 as stated fails in two places. Where `proximityWnd + 1` wraps: with window
`2 ^ 64 - 1` and positions `[0]`, `[1]` the pair `a = 0`, `b = 1` satisfies
`0 < b - a <= w + 1` but `findProximityPair` returns false. Where the conversion to
`long` changes a position: with window `2 ^ 63` and positions `[0]`, `[2 ^ 63]` the
pair satisfies the condition but `findProximityPair` returns false. -/
theorem findProximityPair_iff_fails :
    ¬ (findProximityPair ⟨1, 1, [0]⟩ ⟨1, 1, [1]⟩ (2 ^ 64 - 1) = true ↔
        ∃ a ∈ ([0] : List Nat), ∃ b ∈ ([1] : List Nat),
          (0 : Int) < (b : Int) - (a : Int) ∧
            (b : Int) - (a : Int) ≤ ((2 ^ 64 - 1 : Nat) : Int) + 1) ∧
    ¬ (findProximityPair ⟨1, 1, [0]⟩ ⟨1, 1, [2 ^ 63]⟩ (2 ^ 63) = true ↔
        ∃ a ∈ ([0] : List Nat), ∃ b ∈ ([2 ^ 63] : List Nat),
          (0 : Int) < (b : Int) - (a : Int) ∧
            (b : Int) - (a : Int) ≤ ((2 ^ 63 : Nat) : Int) + 1) := by
  constructor
  · intro h
    have hfalse : findProximityPair ⟨1, 1, [0]⟩ ⟨1, 1, [1]⟩ (2 ^ 64 - 1) = false := by decide
    have htrue : findProximityPair ⟨1, 1, [0]⟩ ⟨1, 1, [1]⟩ (2 ^ 64 - 1) = true :=
      h.mpr ⟨0, by simp, 1, by simp, by norm_num, by norm_num⟩
    rw [hfalse] at htrue
    exact Bool.false_ne_true htrue
  · intro h
    have hfalse : findProximityPair ⟨1, 1, [0]⟩ ⟨1, 1, [2 ^ 63]⟩ (2 ^ 63) = false := by decide
    have htrue : findProximityPair ⟨1, 1, [0]⟩ ⟨1, 1, [2 ^ 63]⟩ (2 ^ 63) = true :=
      h.mpr ⟨0, by simp, 2 ^ 63, by simp, by norm_num, by norm_num⟩
    rw [hfalse] at htrue
    exact Bool.false_ne_true htrue

/-- Claim C7, amended. For postings `p1`, `p2` whose positions are all below `2 ^ 63`
and every window `w` below `2 ^ 64 - 1`, `findProximityPair p1 p2 w` is true if and
only if there are a position `a` of `p1` and a position `b` of `p2` with
`0 < b - a <= w + 1`. -/
theorem findProximityPair_iff (p1 p2 : Posting) (w : Nat)
    (h1 : ∀ a ∈ p1.positions, a < 2 ^ 63) (h2 : ∀ b ∈ p2.positions, b < 2 ^ 63)
    (hw : w < 2 ^ 64 - 1) :
    findProximityPair p1 p2 w = true ↔
      ∃ a ∈ p1.positions, ∃ b ∈ p2.positions,
        (0 : Int) < (b : Int) - (a : Int) ∧ (b : Int) - (a : Int) ≤ (w : Int) + 1 := by
  have h := findProximityPair_eq_true_iff p1 p2 w h1 h2 hw
  exact h

/-- Witness for C7 (amended): positions `[1, 8]` and `[4, 10]`, window 1; the pair
`a = 8`, `b = 10` matches. -/
theorem findProximityPair_iff_witness :
    (∀ a ∈ [1, 8], a < 2 ^ 63) ∧ (∀ b ∈ [4, 10], b < 2 ^ 63) ∧ 1 < 2 ^ 64 - 1 ∧
      findProximityPair ⟨1, 2, [1, 8]⟩ ⟨1, 2, [4, 10]⟩ 1 = true ∧
      (findProximityPair ⟨1, 2, [1, 8]⟩ ⟨1, 2, [4, 10]⟩ 1 = true ↔
        ∃ a ∈ ([1, 8] : List Nat), ∃ b ∈ ([4, 10] : List Nat),
          (0 : Int) < (b : Int) - (a : Int) ∧ (b : Int) - (a : Int) ≤ ((1 : Nat) : Int) + 1) :=
  ⟨by decide, by decide, by decide, by decide,
    findProximityPair_iff ⟨1, 2, [1, 8]⟩ ⟨1, 2, [4, 10]⟩ 1 (by decide) (by decide) (by decide)⟩

/-- Claim C8 as stated fails in two places. Where `proximityWnd + 1` wraps: with `a = 2`,
`b = 3` and window `2 ^ 64 - 1` the premise `0 < b - a <= w + 1` holds but
`findProximityPair [a] [b] w` is false. Where the conversion to `long` changes a
position: with `a = 0`, `b = 2 ^ 64 - 1` and window `2 ^ 64 - 2` the premise holds but
`findProximityPair [b] [a] w` is true (`b` converts to the `long` value -1). -/
theorem findProximityPair_directional_fails :
    (((0 : Int) < ((3 : Nat) : Int) - ((2 : Nat) : Int) ∧
        ((3 : Nat) : Int) - ((2 : Nat) : Int) ≤ ((2 ^ 64 - 1 : Nat) : Int) + 1) ∧
      ¬ (findProximityPair ⟨1, 1, [2]⟩ ⟨1, 1, [3]⟩ (2 ^ 64 - 1) = true ∧
          findProximityPair ⟨1, 1, [3]⟩ ⟨1, 1, [2]⟩ (2 ^ 64 - 1) = false)) ∧
    (((0 : Int) < ((2 ^ 64 - 1 : Nat) : Int) - ((0 : Nat) : Int) ∧
        ((2 ^ 64 - 1 : Nat) : Int) - ((0 : Nat) : Int) ≤ ((2 ^ 64 - 2 : Nat) : Int) + 1) ∧
      ¬ (findProximityPair ⟨1, 1, [0]⟩ ⟨1, 1, [2 ^ 64 - 1]⟩ (2 ^ 64 - 2) = true ∧
          findProximityPair ⟨1, 1, [2 ^ 64 - 1]⟩ ⟨1, 1, [0]⟩ (2 ^ 64 - 2) = false)) := by
  refine ⟨⟨⟨by norm_num, by norm_num⟩, ?_⟩, ⟨⟨by norm_num, by norm_num⟩, ?_⟩⟩
  · intro h
    have hfalse : findProximityPair ⟨1, 1, [2]⟩ ⟨1, 1, [3]⟩ (2 ^ 64 - 1) = false := by decide
    rw [hfalse] at h
    exact Bool.false_ne_true h.1
  · intro h
    have htrue : findProximityPair ⟨1, 1, [2 ^ 64 - 1]⟩ ⟨1, 1, [0]⟩ (2 ^ 64 - 2) = true := by
      decide
    rw [htrue] at h
    exact Bool.false_ne_true h.2.symm

/-- Claim C8, amended. Proximity matching is directional: for single-occurrence postings
`p1 = [a]`, `p2 = [b]` with `a`, `b` below `2 ^ 63`, a window `w` below `2 ^ 64 - 1`
and `0 < b - a <= w + 1`, `findProximityPair p1 p2 w` is true and
`findProximityPair p2 p1 w` is false. -/
theorem findProximityPair_directional (p1 p2 : Posting) (a b w : Nat)
    (hp1 : p1.positions = [a]) (hp2 : p2.positions = [b])
    (ha : a < 2 ^ 63) (hb : b < 2 ^ 63) (hw : w < 2 ^ 64 - 1)
    (hpos : (0 : Int) < (b : Int) - (a : Int))
    (hle : (b : Int) - (a : Int) ≤ (w : Int) + 1) :
    findProximityPair p1 p2 w = true ∧ findProximityPair p2 p1 w = false := by
  have hfwd : findProximityPair p1 p2 w = true := by
    rw [findProximityPair_eq_true_iff p1 p2 w (by rw [hp1]; simpa using ha)
      (by rw [hp2]; simpa using hb) hw, hp1, hp2]
    exact ⟨a, by simp, b, by simp, hpos, hle⟩
  refine ⟨hfwd, ?_⟩
  cases hrev : findProximityPair p2 p1 w with
  | false => rfl
  | true =>
    rw [findProximityPair_eq_true_iff p2 p1 w (by rw [hp2]; simpa using hb)
      (by rw [hp1]; simpa using ha) hw, hp1, hp2] at hrev
    obtain ⟨x, hx, y, hy, hxy, _⟩ := hrev
    simp only [List.mem_singleton] at hx hy
    subst hx
    subst hy
    omega

/-- Witness for C8 (amended), the case of the specification: `p1 = [3]`, `p2 = [5]`,
window 1 gives true, and false with the postings exchanged. -/
theorem findProximityPair_directional_witness :
    ((0 : Int) < ((5 : Nat) : Int) - ((3 : Nat) : Int) ∧
        ((5 : Nat) : Int) - ((3 : Nat) : Int) ≤ ((1 : Nat) : Int) + 1) ∧
      (findProximityPair ⟨1, 1, [3]⟩ ⟨1, 1, [5]⟩ 1 = true ∧
        findProximityPair ⟨1, 1, [5]⟩ ⟨1, 1, [3]⟩ 1 = false) :=
  ⟨⟨by decide, by decide⟩,
    findProximityPair_directional ⟨1, 1, [3]⟩ ⟨1, 1, [5]⟩ 3 5 1 rfl rfl
      (by decide) (by decide) (by decide) (by decide) (by decide)⟩

/-! ## Query parsing -/

theorem tokenize_nil (ks : KrovetzStemmer) : tokenize ks [] = [] := by
  simp [tokenize, tokenizeLoop]

/-- Scanning text without a closing bracket and without a digit followed by an
opening bracket appends every character to the accumulator. -/
theorem buildQueriesLoop_plain (ks : KrovetzStemmer) (q : List Char) (st : ParseState)
    (hclose : ')' ∉ q) (hopen : hasDigitParen q = false) :
    buildQueriesLoop ks q st =
      ⟨st.curQuery ++ q, st.proxWnd, st.proxQueries, st.freeTextQueries⟩ := by
  induction q generalizing st with
  | nil => simp [buildQueriesLoop]
  | cons c rest ih =>
    have hc : c ≠ ')' := fun e => hclose (by simp [e])
    have hrest : ')' ∉ rest := fun h => hclose (List.mem_cons_of_mem _ h)
    cases rest with
    | nil => simp [buildQueriesLoop, hc]
    | cons c' rest' =>
      simp only [hasDigitParen, Bool.or_eq_false_iff, Bool.and_eq_false_imp,
        decide_eq_false_iff_not] at hopen
      have hno : ¬ (c.isDigit = true ∧ c' = '(') := fun h => hopen.1 h.1 h.2
      rw [buildQueriesLoop, if_neg hno, if_neg hc, ih _ hrest hopen.2]
      simp

/-- Claim C9. For every non-empty query string that contains no closing bracket and no
digit immediately followed by an opening bracket, `buildQueries` emits no proximity
sub-query and exactly one FreeText sub-query, built from the whole string, whose
terms are `tokenize` of the whole string. -/
theorem buildQueries_plain_text (ks : KrovetzStemmer) (q : Str)
    (hne : q ≠ []) (hclose : ')' ∉ q) (hopen : hasDigitParen q = false) :
    buildQueries ks q [] [] = ([], [⟨q, tokenize ks q⟩]) := by
  unfold buildQueries
  rw [buildQueriesLoop_plain ks q _ hclose hopen]
  simp [hne, Query.make]

/-- Witness for C9: the query `ab (c` (an opening bracket not preceded by a digit). -/
theorem buildQueries_plain_text_witness :
    ['a', 'b', ' ', '(', 'c'] ≠ [] ∧ ')' ∉ ['a', 'b', ' ', '(', 'c'] ∧
      hasDigitParen ['a', 'b', ' ', '(', 'c'] = false ∧
      tokenize noStemmer ['a', 'b', ' ', '(', 'c'] = [['a', 'b'], ['c']] ∧
      buildQueries noStemmer ['a', 'b', ' ', '(', 'c'] [] []
        = ([], [⟨['a', 'b', ' ', '(', 'c'], tokenize noStemmer ['a', 'b', ' ', '(', 'c']⟩]) :=
  ⟨by decide, by decide, by decide, by decide,
    buildQueries_plain_text noStemmer ['a', 'b', ' ', '(', 'c'] (by decide) (by decide)
      (by decide)⟩

/-- Scanning a stretch without brackets that is not followed by an opening bracket
appends it to the accumulator and continues with what follows. -/
theorem buildQueriesLoop_append (ks : KrovetzStemmer) (text rest : List Char)
    (st : ParseState) (htext : ∀ c ∈ text, c ≠ '(' ∧ c ≠ ')')
    (hrest : ∀ c tl, rest = c :: tl → c ≠ '(') :
    buildQueriesLoop ks (text ++ rest) st =
      buildQueriesLoop ks rest
        ⟨st.curQuery ++ text, st.proxWnd, st.proxQueries, st.freeTextQueries⟩ := by
  induction text generalizing st with
  | nil => simp
  | cons c text' ih =>
    have hc : c ≠ ')' := (htext c (List.mem_cons_self _ _)).2
    have htext' : ∀ x ∈ text', x ≠ '(' ∧ x ≠ ')' :=
      fun x hx => htext x (List.mem_cons_of_mem _ hx)
    have hih := ih ⟨st.curQuery ++ [c], st.proxWnd, st.proxQueries, st.freeTextQueries⟩ htext'
    simp only [List.append_assoc, List.singleton_append] at hih
    cases hnext : text' ++ rest with
    | nil =>
      have h1 : text' = [] := (List.append_eq_nil.mp hnext).1
      have h2 : rest = [] := (List.append_eq_nil.mp hnext).2
      subst h1
      subst h2
      simp [buildQueriesLoop, hc]
    | cons c' tl =>
      have hc' : c' ≠ '(' := by
        cases text' with
        | nil => exact hrest c' tl (by simpa using hnext)
        | cons x xs =>
          have hx : x = c' := by
            have := congrArg List.head? hnext
            simpa using this
          exact hx ▸ (htext' x (List.mem_cons_self _ _)).1
      have hno : ¬ (c.isDigit = true ∧ c' = '(') := fun h => hc' h.2
      rw [List.cons_append, hnext, buildQueriesLoop, if_neg hno, if_neg hc, ← hnext, hih]

theorem digit_value_le (d : Char) (hd : d.isDigit = true) : d.toNat - '0'.toNat ≤ 9 := by
  simp only [Char.isDigit, Bool.and_eq_true, decide_eq_true_eq] at hd
  have h2 : d.val.toNat ≤ 57 := hd.2
  have h3 : '0'.toNat = 48 := by decide
  have h4 : d.toNat = d.val.toNat := rfl
  omega

/-- Claim C10. For a query `pre ++ d ++ "(" ++ body ++ ")"` where `d` is a digit, `pre` and
`body` contain no bracket and `tokenize body` has at least two terms, `buildQueries`
emits exactly one ProximityQuery, with window the value of `d` (at most 9) and
terms `tokenize body`; it emits `pre` as the only FreeText sub-query if
`tokenize pre` is non-empty and no FreeText sub-query otherwise. -/
theorem buildQueries_single_block (ks : KrovetzStemmer) (pre body : Str) (d : Char)
    (hd : d.isDigit = true)
    (hpre : ∀ c ∈ pre, c ≠ '(' ∧ c ≠ ')') (hbody : ∀ c ∈ body, c ≠ '(' ∧ c ≠ ')')
    (hterms : 2 ≤ (tokenize ks body).length) :
    buildQueries ks (pre ++ d :: '(' :: (body ++ [')'])) [] [] =
        ([⟨⟨body, tokenize ks body⟩, d.toNat - '0'.toNat⟩],
          if tokenize ks pre ≠ [] then [⟨pre, tokenize ks pre⟩] else []) ∧
      d.toNat - '0'.toNat ≤ 9 := by
  refine ⟨?_, digit_value_le d hd⟩
  have hdne : d ≠ '(' := by
    intro e
    rw [e] at hd
    exact absurd hd (by decide)
  have hbne : body ≠ [] := by
    intro e
    rw [e, tokenize_nil] at hterms
    simp at hterms
  have htok : 0 < (tokenize ks body).length := by omega
  have hopen : openBlock ks d ⟨pre, 0, [], []⟩ =
      ⟨[], d.toNat - '0'.toNat, [],
        if tokenize ks pre ≠ [] then [⟨pre, tokenize ks pre⟩] else []⟩ := by
    unfold openBlock
    by_cases hp : pre = []
    · subst hp
      simp [tokenize_nil]
    · by_cases ht : tokenize ks pre = []
      · simp [hp, ht, Query.make, Query.terms]
      · have hlen : 0 < (tokenize ks pre).length := List.length_pos.mpr ht
        simp [hp, ht, Query.make, Query.terms]
  have hstep : ∀ st : ParseState,
      buildQueriesLoop ks (d :: '(' :: (body ++ [')'])) st =
        buildQueriesLoop ks (body ++ [')']) (openBlock ks d st) := by
    intro st
    rw [buildQueriesLoop]
    exact if_pos (And.intro hd rfl)
  have hloop : buildQueriesLoop ks (pre ++ d :: '(' :: (body ++ [')'])) ⟨[], 0, [], []⟩ =
      ⟨[], d.toNat - '0'.toNat, [⟨⟨body, tokenize ks body⟩, d.toNat - '0'.toNat⟩],
        if tokenize ks pre ≠ [] then [⟨pre, tokenize ks pre⟩] else []⟩ := by
    rw [buildQueriesLoop_append ks pre _ _ hpre (by
      intro c tl h
      have hc : d = c := (List.cons.inj h).1
      exact hc ▸ hdne)]
    simp only [List.nil_append]
    rw [hstep, hopen, buildQueriesLoop_append ks body _ _ hbody (by
      intro c tl h
      have hc : ')' = c := (List.cons.inj h).1
      rw [← hc]
      decide)]
    simp only [List.nil_append]
    rw [buildQueriesLoop, if_pos rfl]
    unfold closeBlock
    simp only [ProximityQuery.make, Query.make, Query.terms]
    rw [if_pos hbne, if_pos htok]
    simp
  unfold buildQueries
  rw [hloop]
  simp

/-- Witness for C10: the query `a 1(b c)`. -/
theorem buildQueries_single_block_witness :
    ('1').isDigit = true ∧
      (∀ c ∈ ['a', ' '], c ≠ '(' ∧ c ≠ ')') ∧ (∀ c ∈ ['b', ' ', 'c'], c ≠ '(' ∧ c ≠ ')') ∧
      2 ≤ (tokenize noStemmer ['b', ' ', 'c']).length ∧
      buildQueries noStemmer ['a', ' ', '1', '(', 'b', ' ', 'c', ')'] [] []
        = ([⟨⟨['b', ' ', 'c'], [['b'], ['c']]⟩, 1⟩], []) ∧
      (buildQueries noStemmer (['a', ' '] ++ '1' :: '(' :: (['b', ' ', 'c'] ++ [')'])) [] [] =
          ([⟨⟨['b', ' ', 'c'], tokenize noStemmer ['b', ' ', 'c']⟩, ('1').toNat - '0'.toNat⟩],
            if tokenize noStemmer ['a', ' '] ≠ [] then
              [⟨['a', ' '], tokenize noStemmer ['a', ' ']⟩] else []) ∧
        ('1').toNat - '0'.toNat ≤ 9) :=
  ⟨by decide, by decide, by decide, by decide, by decide,
    buildQueries_single_block noStemmer ['a', ' '] ['b', ' ', 'c'] '1' (by decide)
      (by decide) (by decide) (by decide)⟩

/-! ### Blocks: what is emitted, and with which terms -/

theorem openBlock_proxQueries (ks : KrovetzStemmer) (c : Char) (st : ParseState) :
    (openBlock ks c st).proxQueries = st.proxQueries := by
  unfold openBlock
  by_cases h : st.curQuery = []
  · simp [h]
  · by_cases h2 : (Query.make ks st.curQuery).terms.length > 0 <;> simp [h, h2]

theorem openBlock_curQuery (ks : KrovetzStemmer) (c : Char) (st : ParseState) :
    (openBlock ks c st).curQuery = [] := by
  unfold openBlock
  by_cases h : st.curQuery = []
  · simp [h]
  · by_cases h2 : (Query.make ks st.curQuery).terms.length > 0 <;> simp [h, h2]

/-- Scanning can be cut before any character that is not an opening bracket. -/
theorem buildQueriesLoop_split (ks : KrovetzStemmer) (text rest : List Char)
    (st : ParseState) (hrest : ∀ c tl, rest = c :: tl → c ≠ '(') :
    buildQueriesLoop ks (text ++ rest) st =
      buildQueriesLoop ks rest (buildQueriesLoop ks text st) := by
  induction text, st using buildQueriesLoop.induct ks with
  | case1 st => simp [buildQueriesLoop]
  | case2 st =>
    cases rest with
    | nil => simp [buildQueriesLoop]
    | cons r tl =>
      have hr : r ≠ '(' := hrest r tl rfl
      simp [buildQueriesLoop, hr]
  | case3 c st hc =>
    cases rest with
    | nil => simp [buildQueriesLoop]
    | cons r tl =>
      have hr : r ≠ '(' := hrest r tl rfl
      simp [buildQueriesLoop, hr, hc]
  | case4 c c' text' st hopen ih =>
    rw [List.cons_append, List.cons_append, buildQueriesLoop, if_pos hopen, ih,
      buildQueriesLoop, if_pos hopen]
  | case5 c' text' st hno ih =>
    rw [List.cons_append, List.cons_append, buildQueriesLoop, if_neg hno, if_pos rfl,
      ← List.cons_append, ih, buildQueriesLoop, if_neg hno, if_pos rfl]
  | case6 c c' text' st hno hc ih =>
    rw [List.cons_append, List.cons_append, buildQueriesLoop, if_neg hno, if_neg hc,
      ← List.cons_append, ih, buildQueriesLoop, if_neg hno, if_neg hc]

/-- Without a closing bracket no proximity query is emitted. -/
theorem buildQueriesLoop_proxQueries_of_no_close (ks : KrovetzStemmer) (text : List Char)
    (st : ParseState) (hclose : ')' ∉ text) :
    (buildQueriesLoop ks text st).proxQueries = st.proxQueries := by
  induction text, st using buildQueriesLoop.induct ks with
  | case1 st => simp [buildQueriesLoop]
  | case2 st => simp at hclose
  | case3 c st hc => simp [buildQueriesLoop, hc]
  | case4 c c' text' st hopen ih =>
    have h2 : ')' ∉ text' := fun h =>
      hclose (List.mem_cons_of_mem _ (List.mem_cons_of_mem _ h))
    rw [buildQueriesLoop, if_pos hopen, ih h2, openBlock_proxQueries]
  | case5 c' text' st hno ih => simp at hclose
  | case6 c c' text' st hno hc ih =>
    have h2 : ')' ∉ c' :: text' := fun h => hclose (List.mem_cons_of_mem _ h)
    rw [buildQueriesLoop, if_neg hno, if_neg hc, ih h2]

theorem buildQueries_fst (ks : KrovetzStemmer) (text : Str) :
    (buildQueries ks text [] []).1 =
      (buildQueriesLoop ks text ⟨[], 0, [], []⟩).proxQueries := by
  unfold buildQueries
  by_cases h : (buildQueriesLoop ks text ⟨[], 0, [], []⟩).curQuery = [] <;> simp [h]

/-- Claim C11, failing input. The query `1(fox)`: the block normalizes to the single term
`fox`, and `buildQueries` emits a ProximityQuery carrying that one term. -/
theorem buildQueries_one_term_block :
    buildQueries noStemmer ['1', '(', 'f', 'o', 'x', ')'] [] [] =
        ([⟨⟨['f', 'o', 'x'], [['f', 'o', 'x']]⟩, 1⟩], []) ∧
      tokenize noStemmer ['f', 'o', 'x'] = [['f', 'o', 'x']] ∧
      ¬ (∀ pq ∈ (buildQueries noStemmer ['1', '(', 'f', 'o', 'x', ')'] [] []).1,
          2 ≤ pq.toQuery.terms.length) := by
  decide

/-- Claim C13 as stated fails on the query `1(fox jumps`: no ProximityQuery is emitted,
but the contents of the unclosed block are emitted as a FreeText sub-query with
terms `fox`, `jumps`. -/
theorem buildQueries_unclosed_block_flushed :
    buildQueries noStemmer ['1', '(', 'f', 'o', 'x', ' ', 'j', 'u', 'm', 'p', 's'] [] [] =
        ([], [⟨['f', 'o', 'x', ' ', 'j', 'u', 'm', 'p', 's'],
          [['f', 'o', 'x'], ['j', 'u', 'm', 'p', 's']]⟩]) ∧
      ¬ (∀ fq ∈ (buildQueries noStemmer
            ['1', '(', 'f', 'o', 'x', ' ', 'j', 'u', 'm', 'p', 's'] [] []).2,
          ∀ t ∈ tokenize noStemmer ['f', 'o', 'x', ' ', 'j', 'u', 'm', 'p', 's'],
            t ∉ fq.terms) := by
  decide

/-- Claim C13, amended. When a block is opened by a digit followed by an opening bracket
and no closing bracket occurs afterwards, `buildQueries` emits no ProximityQuery for
the block: the proximity queries are those of the text before the block. The
contents are not dropped: if no further block is opened and the contents are
non-empty, they are emitted at end of input as the last FreeText sub-query. -/
theorem buildQueries_unclosed_block (ks : KrovetzStemmer) (pre tail : Str) (d : Char)
    (hd : d.isDigit = true) (hclose : ')' ∉ tail) :
    (buildQueries ks (pre ++ d :: '(' :: tail) [] []).1 = (buildQueries ks pre [] []).1 ∧
      (hasDigitParen tail = false → tail ≠ [] →
        ∃ ft, (buildQueries ks (pre ++ d :: '(' :: tail) [] []).2 =
          ft ++ [Query.make ks tail]) := by
  have hdne : d ≠ '(' := by
    intro e
    rw [e] at hd
    exact absurd hd (by decide)
  have hsplit : buildQueriesLoop ks (pre ++ d :: '(' :: tail) ⟨[], 0, [], []⟩ =
      buildQueriesLoop ks tail (openBlock ks d (buildQueriesLoop ks pre ⟨[], 0, [], []⟩)) := by
    rw [buildQueriesLoop_split ks pre _ _ (by
      intro c tl h
      have hc : d = c := (List.cons.inj h).1
      exact hc ▸ hdne)]
    rw [buildQueriesLoop, if_pos ⟨hd, rfl⟩]
  constructor
  · rw [buildQueries_fst, buildQueries_fst, hsplit, buildQueriesLoop_proxQueries_of_no_close ks tail _ hclose,
      openBlock_proxQueries]
  · intro hopen hne
    refine ⟨(openBlock ks d (buildQueriesLoop ks pre ⟨[], 0, [], []⟩)).freeTextQueries, ?_⟩
    unfold buildQueries
    rw [hsplit, buildQueriesLoop_plain ks tail _ hclose hopen, openBlock_curQuery]
    simp [hne]

/-- Witness for C13 (amended): the query `a 1(fox jumps`. -/
theorem buildQueries_unclosed_block_witness :
    ('1').isDigit = true ∧ ')' ∉ ['f', 'o', 'x', ' ', 'j', 'u', 'm', 'p', 's'] ∧
      hasDigitParen ['f', 'o', 'x', ' ', 'j', 'u', 'm', 'p', 's'] = false ∧
      ['f', 'o', 'x', ' ', 'j', 'u', 'm', 'p', 's'] ≠ [] ∧
      buildQueries noStemmer
          ['a', 'b', ' ', '1', '(', 'f', 'o', 'x', ' ', 'j', 'u', 'm', 'p', 's'] [] [] =
        ([], [⟨['a', 'b', ' '], [['a', 'b']]⟩,
          ⟨['f', 'o', 'x', ' ', 'j', 'u', 'm', 'p', 's'],
            [['f', 'o', 'x'], ['j', 'u', 'm', 'p', 's']]⟩]) ∧
      (buildQueries noStemmer
          (['a', 'b', ' '] ++ '1' :: '(' :: ['f', 'o', 'x', ' ', 'j', 'u', 'm', 'p', 's'])
          [] []).1 = (buildQueries noStemmer ['a', 'b', ' '] [] []).1 ∧
      (∃ ft, (buildQueries noStemmer
          (['a', 'b', ' '] ++ '1' :: '(' :: ['f', 'o', 'x', ' ', 'j', 'u', 'm', 'p', 's'])
          [] []).2 = ft ++ [Query.make noStemmer ['f', 'o', 'x', ' ', 'j', 'u', 'm', 'p', 's']]) :=
  ⟨by decide, by decide, by decide, by decide, by decide,
    (buildQueries_unclosed_block noStemmer ['a', 'b', ' ']
      ['f', 'o', 'x', ' ', 'j', 'u', 'm', 'p', 's'] '1' (by decide) (by decide)).1,
    (buildQueries_unclosed_block noStemmer ['a', 'b', ' ']
      ['f', 'o', 'x', ' ', 'j', 'u', 'm', 'p', 's'] '1' (by decide) (by decide)).2
      (by decide) (by decide)⟩

/-! ## Posting lists as key sequences -/

theorem mapFind_isSome_iff_mem_keys (d : Nat) (postings : POSTING_LIST) :
    (∃ p, mapFind d postings = some p) ↔ d ∈ postingKeys postings := by
  induction postings with
  | nil => simp [mapFind, postingKeys]
  | cons hd tl ih =>
    obtain ⟨k, v⟩ := hd
    by_cases h : d = k
    · simp [mapFind, postingKeys, h]
    · simp only [mapFind, h, if_false, ih, postingKeys, List.map_cons, List.mem_cons, false_or]

theorem postingKeys_mapInsert_mem (k : Nat) (v : Posting) (postings : POSTING_LIST) (x : Nat)
    (hx : x ∈ postingKeys (mapInsert k v postings)) : x = k ∨ x ∈ postingKeys postings := by
  unfold postingKeys at hx ⊢
  obtain ⟨e, he, hfst⟩ := List.mem_map.mp hx
  rcases mem_mapInsert k v postings e he with h | h
  · left; rw [← hfst, h]
  · right; exact List.mem_map.mpr ⟨e, h, hfst⟩

theorem postingKeys_mapInsert_sorted (k : Nat) (v : Posting) (postings : POSTING_LIST)
    (h : (postingKeys postings).Sorted (fun x y => x < y)) :
    (postingKeys (mapInsert k v postings)).Sorted (fun x y => x < y) := by
  induction postings with
  | nil => simp [mapInsert, postingKeys]
  | cons hd tl ih =>
    obtain ⟨k', v'⟩ := hd
    have h2 : (∀ b ∈ postingKeys tl, k' < b) ∧ (postingKeys tl).Sorted (fun x y => x < y) := by
      simpa [postingKeys] using h
    by_cases h1 : k = k'
    · subst h1
      simpa [mapInsert, postingKeys] using h
    · by_cases hlt : k < k'
      · simp only [mapInsert, h1, hlt, if_true, if_false]
        have hall : ∀ b ∈ postingKeys ((k', v') :: tl), k < b := by
          intro b hb
          simp only [postingKeys, List.map_cons, List.mem_cons] at hb
          rcases hb with hb | hb
          · rw [hb]; exact hlt
          · exact Nat.lt_trans hlt (h2.1 b (by simpa [postingKeys] using hb))
        exact List.sorted_cons.mpr ⟨hall, h⟩
      · simp only [mapInsert, h1, hlt, if_false]
        have hgt : k' < k := Nat.lt_of_le_of_ne (Nat.le_of_not_lt hlt) (fun e => h1 e.symm)
        have hall : ∀ b ∈ postingKeys (mapInsert k v tl), k' < b := by
          intro b hb
          rcases postingKeys_mapInsert_mem k v tl b hb with hb | hb
          · rw [hb]; exact hgt
          · exact h2.1 b hb
        exact List.sorted_cons.mpr ⟨hall, ih h2.2⟩

theorem intersectPostingsLoop_eq (l1 l2 : POSTING_LIST) :
    intersectPostingsLoop l1 l2 = intersect (postingKeys l1) (postingKeys l2) := by
  induction l1, l2 using intersectPostingsLoop.induct with
  | case1 l2 => simp [intersectPostingsLoop, postingKeys, intersect_nil_left]
  | case2 a l1 => simp [intersectPostingsLoop, postingKeys, intersect_nil_right]
  | case3 a l1 b l2 heq ih =>
    rw [intersectPostingsLoop, if_pos heq, ih]
    simp only [postingKeys, List.map_cons]
    rw [heq, intersect_cons_eq]
  | case4 a l1 b l2 hne hlt ih =>
    rw [intersectPostingsLoop, if_neg hne, if_pos hlt, ih]
    simp only [postingKeys, List.map_cons]
    rw [intersect_cons_lt _ _ _ _ hlt]
  | case5 a l1 b l2 hne hnlt ih =>
    rw [intersectPostingsLoop, if_neg hne, if_neg hnlt, ih]
    simp only [postingKeys, List.map_cons]
    have hgt : b.1 < a.1 := Nat.lt_of_le_of_ne (Nat.le_of_not_lt hnlt) (fun e => hne e.symm)
    rw [intersect_cons_gt _ _ _ _ hgt]

/-! ## The representation invariant -/

theorem Index.WF_empty : Index.empty.WF := by
  intro e he
  simp [Index.empty] at he

theorem Index.WF_getPostings (idx : Index) (hwf : idx.WF) (t : Str) (postings : POSTING_LIST)
    (h : (idx.getPostings t).1 = some postings) :
    (postingKeys postings).Sorted (fun x y => x < y) ∧ ∀ k ∈ postingKeys postings, k < 2 ^ 32 := by
  rw [getPostings_fst] at h
  cases hf : mapFind t idx.m_terms with
  | none => rw [hf] at h; simp at h
  | some ti =>
    rw [hf] at h
    simp only [Option.map_some', Option.some.injEq] at h
    subst h
    exact hwf (t, ti) (mem_of_mapFind t ti _ hf)

theorem Index.WF_addTerm (idx : Index) (hwf : idx.WF) (t : Str) (d p : Nat) :
    (idx.addTerm t d p).WF := by
  intro e he
  unfold Index.addTerm at he
  rcases mem_mapInsert _ _ _ _ he with hnew | hold
  · subst hnew
    have hprev : (postingKeys (match mapFind t idx.m_terms with
        | some ti => ti
        | none => (⟨[], 0, []⟩ : TermInfo)).postings).Sorted (fun x y => x < y) ∧
        ∀ k ∈ postingKeys (match mapFind t idx.m_terms with
          | some ti => ti
          | none => (⟨[], 0, []⟩ : TermInfo)).postings, k < 2 ^ 32 := by
      cases hf : mapFind t idx.m_terms with
      | none => simp [postingKeys]
      | some ti => exact hwf (t, ti) (mem_of_mapFind t ti _ hf)
    refine ⟨postingKeys_mapInsert_sorted _ _ _ hprev.1, ?_⟩
    intro k hk
    rcases postingKeys_mapInsert_mem _ _ _ k hk with h | h
    · rw [h]; exact Nat.mod_lt _ (by norm_num)
    · exact hprev.2 k h
  · exact hwf e hold

theorem Index.WF_addTerms (calls : List AddTermCall) (idx : Index) (hwf : idx.WF) :
    (idx.addTerms calls).WF := by
  induction calls generalizing idx with
  | nil => exact hwf
  | cons c cs ih => exact ih (idx.addTerm c.term c.docID c.pos) (Index.WF_addTerm idx hwf _ _ _)

theorem Index.WF_addTextLoop (docID : Nat) (tokens : List Str) :
    ∀ (idx : Index) (i pos : Nat), idx.WF → (idx.addTextLoop docID i tokens pos).1.WF := by
  induction tokens with
  | nil => intro idx i pos hwf; exact hwf
  | cons tok rest ih =>
    intro idx i pos hwf
    exact ih _ _ _ (Index.WF_addTerm idx hwf _ _ _)

theorem WF_readDocumentBody (ks : KrovetzStemmer) (docID : Nat) (tokens : List Str) :
    ∀ (idx : Index) (termPos : Nat), idx.WF → (readDocumentBody ks docID tokens idx termPos).1.WF := by
  induction tokens with
  | nil => intro idx termPos hwf; exact hwf
  | cons tok rest ih =>
    intro idx termPos hwf
    exact ih _ _ (Index.WF_addTextLoop docID _ idx 0 _ hwf)

theorem WF_exampleIndex (ks : KrovetzStemmer) : (exampleIndex ks).WF :=
  WF_readDocumentBody ks 2 _ _ 0 (WF_readDocumentBody ks 1 _ _ 0 Index.WF_empty)

/-! ## Free-text evaluation -/

theorem postingOf_eq (idx : Index) (t : Str) (d : Nat) (postings : POSTING_LIST)
    (h : (idx.getPostings t).1 = some postings) : idx.postingOf t d = mapFind d postings := by
  unfold Index.postingOf
  rw [h]

theorem postingOf_none (idx : Index) (t : Str) (d : Nat)
    (h : (idx.getPostings t).1 = none) : idx.postingOf t d = none := by
  unfold Index.postingOf
  rw [h]

/-- Self-intersection of a term's posting list is the list of its keys. -/
theorem mem_termDocs (idx : Index) (t : Str) (d : Nat) :
    d ∈ intersectPostings (idx.getPostings t).1 (idx.getPostings t).1 ↔
      ∃ p, idx.postingOf t d = some p := by
  cases h : (idx.getPostings t).1 with
  | none => simp [intersectPostings, postingOf_none idx t d h]
  | some postings =>
    simp only [intersectPostings, intersectPostingsLoop_eq, intersect_self,
      postingOf_eq idx t d postings h]
    exact (mapFind_isSome_iff_mem_keys d postings).symm

theorem sorted_termDocs (idx : Index) (hwf : idx.WF) (t : Str) :
    (intersectPostings (idx.getPostings t).1 (idx.getPostings t).1).Sorted
      (fun x y => x < y) := by
  cases h : (idx.getPostings t).1 with
  | none => simp [intersectPostings]
  | some postings =>
    simp only [intersectPostings, intersectPostingsLoop_eq, intersect_self]
    exact (Index.WF_getPostings idx hwf t postings h).1

theorem sorted_intersect (A B : List Nat)
    (hA : A.Sorted (fun x y => x < y)) (hB : B.Sorted (fun x y => x < y)) :
    (intersect A B).Sorted (fun x y => x < y) := by
  rw [intersect_eq_filter A B hA hB]
  exact List.Sorted.filter _ hA

theorem mem_intersect (A B : List Nat)
    (hA : A.Sorted (fun x y => x < y)) (hB : B.Sorted (fun x y => x < y)) (d : Nat) :
    d ∈ intersect A B ↔ d ∈ A ∧ d ∈ B := by
  rw [intersect_eq_filter A B hA hB, List.mem_filter]
  simp

/-- The term loop of `intersectWithQuery` after its first iteration. -/
theorem intersectWithQueryLoop_succ (idx : Index) (hwf : idx.WF) (terms : List Str) :
    ∀ (i : Nat) (acc : List Nat), acc.Sorted (fun x y => x < y) →
      (intersectWithQueryLoop idx (i + 1) terms acc).Sorted (fun x y => x < y) ∧
        ∀ d, d ∈ intersectWithQueryLoop idx (i + 1) terms acc ↔
          d ∈ acc ∧ ∀ t ∈ terms, ∃ p, idx.postingOf t d = some p := by
  induction terms with
  | nil =>
    intro i acc hacc
    simp [intersectWithQueryLoop, hacc]
  | cons t rest ih =>
    intro i acc hacc
    have hdocs := sorted_termDocs idx hwf t
    have hnext := ih (i + 1)
      (intersect acc (intersectPostings (idx.getPostings t).1 (idx.getPostings t).1))
      (sorted_intersect _ _ hacc hdocs)
    rw [intersectWithQueryLoop, if_neg (Nat.succ_ne_zero i)]
    refine ⟨hnext.1, ?_⟩
    intro d
    rw [hnext.2 d, mem_intersect _ _ hacc hdocs, mem_termDocs]
    simp only [List.mem_cons, forall_eq_or_imp]
    tauto

/-- The term loop of `intersectWithQuery` on a non-empty term list. -/
theorem intersectWithQueryLoop_zero (idx : Index) (hwf : idx.WF) (terms : List Str)
    (hne : terms ≠ []) (acc : List Nat) :
    (intersectWithQueryLoop idx 0 terms acc).Sorted (fun x y => x < y) ∧
      ∀ d, d ∈ intersectWithQueryLoop idx 0 terms acc ↔
        ∀ t ∈ terms, ∃ p, idx.postingOf t d = some p := by
  cases terms with
  | nil => exact absurd rfl hne
  | cons t rest =>
    have hnext := intersectWithQueryLoop_succ idx hwf rest 0
      (intersectPostings (idx.getPostings t).1 (idx.getPostings t).1)
      (sorted_termDocs idx hwf t)
    rw [intersectWithQueryLoop, if_pos rfl]
    refine ⟨hnext.1, ?_⟩
    intro d
    rw [hnext.2 d, mem_termDocs]
    simp only [List.mem_cons, forall_eq_or_imp]

theorem intersectWithQueryLoop_nil (idx : Index) (i : Nat) (acc : List Nat) :
    intersectWithQueryLoop idx i [] acc = acc := by
  simp [intersectWithQueryLoop]

/-- Claim C14. For an index whose posting lists satisfy the representation invariant and a
query that parses to no proximity sub-query and a single FreeText sub-query with at
least one term, `booleanSearch` returns, in strictly ascending order (so each once),
exactly the docIDs that have a posting for every term of the query; the result is
empty when some term is absent from the index. -/
theorem booleanSearch_single_freeText (ks : KrovetzStemmer) (idx : Index) (hwf : idx.WF)
    (q : Str) (fq : Query) (hparse : buildQueries ks q [] [] = ([], [fq]))
    (hterms : fq.terms ≠ []) :
    ∃ r, booleanSearch ks idx q = some r ∧
      (∀ d, d ∈ r ↔ ∀ t ∈ fq.terms, ∃ p, idx.postingOf t d = some p) ∧
      r.Sorted (fun x y => x < y) ∧ r.Nodup ∧
      ((∃ t ∈ fq.terms, (idx.getPostings t).1 = none) → r = []) := by
  have hloop := intersectWithQueryLoop_zero idx hwf fq.terms hterms []
  refine ⟨intersectWithQueryLoop idx 0 fq.terms [], ?_, hloop.2, hloop.1, ?_, ?_⟩
  · unfold booleanSearch
    rw [hparse]
    simp [intersectWithQuery]
  · exact (List.Sorted.nodup hloop.1)
  · rintro ⟨t, ht, hnone⟩
    apply List.eq_nil_iff_forall_not_mem.mpr
    intro d hd
    obtain ⟨p, hp⟩ := (hloop.2 d).mp hd t ht
    rw [postingOf_none idx t d hnone] at hp
    exact absurd hp (by simp)

/-- Witness for C14, the first end-to-end scenario: documents 1 = `the quick fox` and
2 = `quick fox jumps`, query `quick`, result `[1, 2]`. -/
theorem booleanSearch_single_freeText_witness :
    (exampleIndex noStemmer).WF ∧
      buildQueries noStemmer ['q', 'u', 'i', 'c', 'k'] [] [] =
        ([], [⟨['q', 'u', 'i', 'c', 'k'], [['q', 'u', 'i', 'c', 'k']]⟩]) ∧
      booleanSearch noStemmer (exampleIndex noStemmer) ['q', 'u', 'i', 'c', 'k'] = some [1, 2] ∧
      (∃ r, booleanSearch noStemmer (exampleIndex noStemmer) ['q', 'u', 'i', 'c', 'k'] = some r ∧
        (∀ d, d ∈ r ↔ ∀ t ∈ [['q', 'u', 'i', 'c', 'k']],
          ∃ p, (exampleIndex noStemmer).postingOf t d = some p) ∧
        r.Sorted (fun x y => x < y) ∧ r.Nodup ∧
        ((∃ t ∈ [['q', 'u', 'i', 'c', 'k']],
          ((exampleIndex noStemmer).getPostings t).1 = none) → r = [])) :=
  ⟨WF_exampleIndex noStemmer, by decide, by decide!,
    booleanSearch_single_freeText noStemmer (exampleIndex noStemmer)
      (WF_exampleIndex noStemmer) ['q', 'u', 'i', 'c', 'k']
      ⟨['q', 'u', 'i', 'c', 'k'], [['q', 'u', 'i', 'c', 'k']]⟩ (by decide) (by decide)⟩

/-! ## Proximity filtering -/

theorem filterByPositions_nil (p1 p2 : Option POSTING_LIST) (w : Nat) :
    filterByPositions p1 p2 w [] = some [] := by
  simp [filterByPositions]

/-- On docIDs that are keys of both posting lists the position check has defined
behaviour and keeps, in order, those whose two postings pass `findProximityPair`. -/
theorem filterByPositions_spec (l1 l2 : POSTING_LIST) (w : Nat) (docIDs : List Nat)
    (hsorted : docIDs.Sorted (fun x y => x < y))
    (hkeys : ∀ d ∈ docIDs, d < 2 ^ 32 ∧ d ∈ postingKeys l1 ∧ d ∈ postingKeys l2) :
    ∃ r, filterByPositions (some l1) (some l2) w docIDs = some r ∧
      r.Sorted (fun x y => x < y) ∧ (∀ d ∈ r, d ∈ docIDs) ∧
      ∀ d, d ∈ r ↔ d ∈ docIDs ∧ ∃ p1 p2, mapFind d l1 = some p1 ∧ mapFind d l2 = some p2 ∧
        findProximityPair p1 p2 w = true := by
  induction docIDs with
  | nil => exact ⟨[], by simp [filterByPositions], by simp, by simp, by simp⟩
  | cons d rest ih =>
    have hs := List.sorted_cons.mp hsorted
    obtain ⟨r, hr, hrs, hrsub, hrmem⟩ :=
      ih hs.2 (fun x hx => hkeys x (List.mem_cons_of_mem _ hx))
    have hd := hkeys d (List.mem_cons_self _ _)
    have hkey : toUInt d = d := Nat.mod_eq_of_lt hd.1
    obtain ⟨p1, hp1⟩ := (mapFind_isSome_iff_mem_keys d l1).mpr hd.2.1
    obtain ⟨p2, hp2⟩ := (mapFind_isSome_iff_mem_keys d l2).mpr hd.2.2
    have hnotin : d ∉ r := fun h => Nat.lt_irrefl d (hs.1 d (hrsub d h))
    by_cases hfp : findProximityPair p1 p2 w = true
    · refine ⟨d :: r, ?_, ?_, ?_, ?_⟩
      · simp [filterByPositions, hkey, hp1, hp2, hr, hfp]
      · exact List.sorted_cons.mpr ⟨fun b hb => hs.1 b (hrsub b hb), hrs⟩
      · intro x hx
        rcases List.mem_cons.mp hx with h | h
        · rw [h]; exact List.mem_cons_self _ _
        · exact List.mem_cons_of_mem _ (hrsub x h)
      · intro x
        constructor
        · intro hx
          rcases List.mem_cons.mp hx with h | h
          · subst h
            exact ⟨List.mem_cons_self _ _, p1, p2, hp1, hp2, hfp⟩
          · have h2 := (hrmem x).mp h
            exact ⟨List.mem_cons_of_mem _ h2.1, h2.2⟩
        · rintro ⟨hx, hex⟩
          rcases List.mem_cons.mp hx with h | h
          · rw [h]; exact List.mem_cons_self _ _
          · exact List.mem_cons_of_mem _ ((hrmem x).mpr ⟨h, hex⟩)
    · refine ⟨r, ?_, hrs, ?_, ?_⟩
      · simp [filterByPositions, hkey, hp1, hp2, hr, hfp]
      · intro x hx
        exact List.mem_cons_of_mem _ (hrsub x hx)
      · intro x
        constructor
        · intro hx
          have h2 := (hrmem x).mp hx
          exact ⟨List.mem_cons_of_mem _ h2.1, h2.2⟩
        · rintro ⟨hx, q1, q2, hq1, hq2, hq⟩
          rcases List.mem_cons.mp hx with h | h
          · subst h
            rw [hp1] at hq1
            rw [hp2] at hq2
            have e1 := Option.some.inj hq1
            have e2 := Option.some.inj hq2
            subst e1
            subst e2
            exact absurd hq hfp
          · exact (hrmem x).mpr ⟨h, q1, q2, hq1, hq2, hq⟩

/-- The result of one proximity sub-query with at least two terms. -/
theorem filterBy_one_query (idx : Index) (hwf : idx.WF) (pq : ProximityQuery)
    (t0 t1 : Str) (tail : List Str) (hterms : pq.toQuery.terms = t0 :: t1 :: tail) :
    ∃ cur, filterByPositions (idx.getPostings t0).1 (idx.getPostings t1).1 pq.getProximityWnd
          (intersectPostings (idx.getPostings t0).1 (idx.getPostings t1).1) = some cur ∧
      cur.Sorted (fun x y => x < y) ∧ ∀ d, d ∈ cur ↔ pq.satisfiedBy idx d := by
  have hsat : ∀ d, pq.satisfiedBy idx d ↔ ∃ p1 p2, idx.postingOf t0 d = some p1 ∧
      idx.postingOf t1 d = some p2 ∧ findProximityPair p1 p2 pq.getProximityWnd = true := by
    intro d
    unfold ProximityQuery.satisfiedBy
    constructor
    · rintro ⟨a0, a1, atl, p1, p2, ha, h1, h2, h3⟩
      rw [hterms] at ha
      have e0 : t0 = a0 := (List.cons.inj ha).1
      have e1 : t1 = a1 := (List.cons.inj (List.cons.inj ha).2).1
      subst e0
      subst e1
      exact ⟨p1, p2, h1, h2, h3⟩
    · rintro ⟨p1, p2, h1, h2, h3⟩
      exact ⟨t0, t1, tail, p1, p2, hterms, h1, h2, h3⟩
  cases h0 : (idx.getPostings t0).1 with
  | none =>
    refine ⟨[], by simp [intersectPostings, filterByPositions], by simp, ?_⟩
    intro d
    rw [hsat d, postingOf_none idx t0 d h0]
    simp
  | some l1 =>
    cases h1 : (idx.getPostings t1).1 with
    | none =>
      refine ⟨[], by simp [intersectPostings, filterByPositions], by simp, ?_⟩
      intro d
      rw [hsat d, postingOf_none idx t1 d h1]
      simp
    | some l2 =>
      have hw1 := Index.WF_getPostings idx hwf t0 l1 h0
      have hw2 := Index.WF_getPostings idx hwf t1 l2 h1
      have hkeys : ∀ d ∈ intersect (postingKeys l1) (postingKeys l2),
          d < 2 ^ 32 ∧ d ∈ postingKeys l1 ∧ d ∈ postingKeys l2 := by
        intro d hd
        have hm := (mem_intersect _ _ hw1.1 hw2.1 d).mp hd
        exact ⟨hw1.2 d hm.1, hm.1, hm.2⟩
      obtain ⟨r, hr, hrs, _, hrmem⟩ := filterByPositions_spec l1 l2 pq.getProximityWnd
        (intersect (postingKeys l1) (postingKeys l2)) (sorted_intersect _ _ hw1.1 hw2.1) hkeys
      refine ⟨r, by simpa [intersectPostings, intersectPostingsLoop_eq] using hr, hrs, ?_⟩
      intro d
      rw [hsat d, hrmem d, postingOf_eq idx t0 d l1 h0, postingOf_eq idx t1 d l2 h1,
        mem_intersect _ _ hw1.1 hw2.1]
      constructor
      · rintro ⟨_, h⟩
        exact h
      · rintro ⟨p1, p2, hp1, hp2, hfp⟩
        exact ⟨⟨(mapFind_isSome_iff_mem_keys d l1).mp ⟨p1, hp1⟩,
          (mapFind_isSome_iff_mem_keys d l2).mp ⟨p2, hp2⟩⟩, p1, p2, hp1, hp2, hfp⟩

theorem terms_of_two_le (pq : ProximityQuery) (h : 2 ≤ pq.toQuery.terms.length) :
    ∃ t0 t1 tail, pq.toQuery.terms = t0 :: t1 :: tail := by
  cases hq : pq.toQuery.terms with
  | nil => rw [hq] at h; simp at h
  | cons a rest =>
    cases rest with
    | nil => rw [hq] at h; simp at h
    | cons b tl => exact ⟨a, b, tl, rfl⟩

/-- The query loop of `filterBy` after its first iteration. -/
theorem filterByLoop_succ (idx : Index) (hwf : idx.WF) (pqs : List ProximityQuery)
    (hpqs : ∀ pq ∈ pqs, 2 ≤ pq.toQuery.terms.length) :
    ∀ (i : Nat) (acc : List Nat), acc.Sorted (fun x y => x < y) →
      ∃ r, filterByLoop idx (i + 1) pqs acc = some r ∧ r.Sorted (fun x y => x < y) ∧
        ∀ d, d ∈ r ↔ d ∈ acc ∧ ∀ pq ∈ pqs, pq.satisfiedBy idx d := by
  induction pqs with
  | nil =>
    intro i acc hacc
    exact ⟨acc, by simp [filterByLoop], hacc, by simp⟩
  | cons pq rest ih =>
    intro i acc hacc
    obtain ⟨t0, t1, tail, hterms⟩ := terms_of_two_le pq (hpqs pq (List.mem_cons_self _ _))
    obtain ⟨cur, hcur, hcs, hcmem⟩ := filterBy_one_query idx hwf pq t0 t1 tail hterms
    obtain ⟨r, hr, hrs, hrmem⟩ := ih (fun x hx => hpqs x (List.mem_cons_of_mem _ hx)) (i + 1)
      (intersect acc cur) (sorted_intersect _ _ hacc hcs)
    refine ⟨r, ?_, hrs, ?_⟩
    · rw [filterByLoop, hterms]
      simp only [hcur, if_neg (Nat.succ_ne_zero i)]
      exact hr
    · intro d
      rw [hrmem d, mem_intersect _ _ hacc hcs, hcmem d]
      simp only [List.mem_cons, forall_eq_or_imp]
      tauto

/-- The result of `filterBy` on a non-empty list of proximity sub-queries with at least
two terms each. -/
theorem filterBy_spec (idx : Index) (hwf : idx.WF) (pqs : List ProximityQuery)
    (hne : pqs ≠ []) (hpqs : ∀ pq ∈ pqs, 2 ≤ pq.toQuery.terms.length) :
    ∃ r, filterBy idx pqs = some r ∧ r.Sorted (fun x y => x < y) ∧
      ∀ d, d ∈ r ↔ ∀ pq ∈ pqs, pq.satisfiedBy idx d := by
  cases pqs with
  | nil => exact absurd rfl hne
  | cons pq rest =>
    obtain ⟨t0, t1, tail, hterms⟩ := terms_of_two_le pq (hpqs pq (List.mem_cons_self _ _))
    obtain ⟨cur, hcur, hcs, hcmem⟩ := filterBy_one_query idx hwf pq t0 t1 tail hterms
    obtain ⟨r, hr, hrs, hrmem⟩ := filterByLoop_succ idx hwf rest
      (fun x hx => hpqs x (List.mem_cons_of_mem _ hx)) 0 (intersect cur cur)
      (sorted_intersect _ _ hcs hcs)
    refine ⟨r, ?_, hrs, ?_⟩
    · unfold filterBy
      rw [filterByLoop, hterms]
      simp only [hcur, if_pos]
      exact hr
    · intro d
      rw [hrmem d, intersect_self, hcmem d]
      simp only [List.mem_cons, forall_eq_or_imp]

/-- Claim C15. For an index whose posting lists satisfy the representation invariant and a
non-empty list of proximity sub-queries with at least two terms each, `filterBy`
returns, in strictly ascending order, exactly the docIDs `d` such that for every
sub-query both of its first two terms have a posting for `d` and
`findProximityPair` holds for these postings with the sub-query's window; and
`booleanSearch` on a query that parses to these proximity sub-queries and no
FreeText sub-query returns the same sequence. -/
theorem filterBy_correct (idx : Index) (hwf : idx.WF) (pqs : List ProximityQuery)
    (hne : pqs ≠ []) (hpqs : ∀ pq ∈ pqs, 2 ≤ pq.toQuery.terms.length) :
    ∃ r, filterBy idx pqs = some r ∧ r.Sorted (fun x y => x < y) ∧
      (∀ d, d ∈ r ↔ ∀ pq ∈ pqs, pq.satisfiedBy idx d) ∧
      ∀ (ks : KrovetzStemmer) (q : Str), buildQueries ks q [] [] = (pqs, []) →
        booleanSearch ks idx q = some r := by
  obtain ⟨r, hr, hrs, hrmem⟩ := filterBy_spec idx hwf pqs hne hpqs
  refine ⟨r, hr, hrs, hrmem, ?_⟩
  intro ks q hparse
  have hlen : 0 < pqs.length := List.length_pos.mpr hne
  unfold booleanSearch
  rw [hparse]
  simp only [gt_iff_lt, hlen, if_true, hr, List.foldl_nil]
  split <;> rfl

/-- Witness for C15, the second end-to-end scenario: documents 1 = `the quick fox` and
2 = `quick fox jumps`, query `0(quick fox)`, result `[1, 2]`. -/
theorem filterBy_correct_witness :
    (exampleIndex noStemmer).WF ∧
      ([⟨⟨['q', 'u', 'i', 'c', 'k', ' ', 'f', 'o', 'x'], [['q', 'u', 'i', 'c', 'k'], ['f', 'o', 'x']]⟩, 0⟩] : List ProximityQuery) ≠ [] ∧
      (∀ pq ∈ ([⟨⟨['q', 'u', 'i', 'c', 'k', ' ', 'f', 'o', 'x'], [['q', 'u', 'i', 'c', 'k'], ['f', 'o', 'x']]⟩, 0⟩] : List ProximityQuery), 2 ≤ pq.toQuery.terms.length) ∧
      buildQueries noStemmer ['0', '(', 'q', 'u', 'i', 'c', 'k', ' ', 'f', 'o', 'x', ')'] [] [] = ([⟨⟨['q', 'u', 'i', 'c', 'k', ' ', 'f', 'o', 'x'], [['q', 'u', 'i', 'c', 'k'], ['f', 'o', 'x']]⟩, 0⟩], []) ∧
      booleanSearch noStemmer (exampleIndex noStemmer) ['0', '(', 'q', 'u', 'i', 'c', 'k', ' ', 'f', 'o', 'x', ')'] = some [1, 2] ∧
      (∃ r, filterBy (exampleIndex noStemmer) [⟨⟨['q', 'u', 'i', 'c', 'k', ' ', 'f', 'o', 'x'], [['q', 'u', 'i', 'c', 'k'], ['f', 'o', 'x']]⟩, 0⟩] = some r ∧
        r.Sorted (fun x y => x < y) ∧
        (∀ d, d ∈ r ↔ ∀ pq ∈ ([⟨⟨['q', 'u', 'i', 'c', 'k', ' ', 'f', 'o', 'x'], [['q', 'u', 'i', 'c', 'k'], ['f', 'o', 'x']]⟩, 0⟩] : List ProximityQuery),
          pq.satisfiedBy (exampleIndex noStemmer) d) ∧
        ∀ (ks : KrovetzStemmer) (q : Str),
          buildQueries ks q [] [] = ([⟨⟨['q', 'u', 'i', 'c', 'k', ' ', 'f', 'o', 'x'], [['q', 'u', 'i', 'c', 'k'], ['f', 'o', 'x']]⟩, 0⟩], []) →
            booleanSearch ks (exampleIndex noStemmer) q = some r) :=
  ⟨WF_exampleIndex noStemmer, by decide, by decide, by decide, by decide!,
    filterBy_correct (exampleIndex noStemmer) (WF_exampleIndex noStemmer)
      [⟨⟨['q', 'u', 'i', 'c', 'k', ' ', 'f', 'o', 'x'], [['q', 'u', 'i', 'c', 'k'], ['f', 'o', 'x']]⟩, 0⟩] (by decide) (by decide)⟩

/-- Claim C16. For an index whose posting lists satisfy the representation invariant and a
query that parses to at least one proximity sub-query (each with at least two
terms) and exactly one FreeText sub-query with at least one term, `booleanSearch`
returns, in strictly ascending order, exactly the docIDs that are in the combined
proximity filter and have a posting for every free-text term. -/
theorem booleanSearch_proximity_and_freeText (ks : KrovetzStemmer) (idx : Index)
    (hwf : idx.WF) (q : Str) (pqs : List ProximityQuery) (fq : Query)
    (hparse : buildQueries ks q [] [] = (pqs, [fq])) (hne : pqs ≠ [])
    (hpqs : ∀ pq ∈ pqs, 2 ≤ pq.toQuery.terms.length) (hterms : fq.terms ≠ []) :
    ∃ f r, filterBy idx pqs = some f ∧ booleanSearch ks idx q = some r ∧
      r.Sorted (fun x y => x < y) ∧
      (∀ d, d ∈ f ↔ ∀ pq ∈ pqs, pq.satisfiedBy idx d) ∧
      (∀ d, d ∈ r ↔ d ∈ f ∧ ∀ t ∈ fq.terms, ∃ p, idx.postingOf t d = some p) := by
  obtain ⟨f, hf, hfs, hfmem⟩ := filterBy_spec idx hwf pqs hne hpqs
  have hloop := intersectWithQueryLoop_zero idx hwf fq.terms hterms []
  have hlen : 0 < pqs.length := List.length_pos.mpr hne
  by_cases hfe : f = []
  · refine ⟨f, [], hf, ?_, by simp, hfmem, ?_⟩
    · unfold booleanSearch
      rw [hparse]
      simp [hlen, hf, hfe]
    · intro d
      simp [hfe]
  · have hflen : 0 < f.length := List.length_pos.mpr hfe
    refine ⟨f, intersect f (intersectWithQueryLoop idx 0 fq.terms []), hf, ?_,
      sorted_intersect _ _ hfs hloop.1, hfmem, ?_⟩
    · unfold booleanSearch
      rw [hparse]
      simp [hlen, hf, hflen, intersectWithQuery]
    · intro d
      rw [mem_intersect _ _ hfs hloop.1, hloop.2 d]

/-- Witness for C16, the third end-to-end scenario: documents 1 = `the quick fox` and
2 = `quick fox jumps`, query `1(fox jumps) quick`, result `[2]`. -/
theorem booleanSearch_proximity_and_freeText_witness :
    (exampleIndex noStemmer).WF ∧
      buildQueries noStemmer ['1', '(', 'f', 'o', 'x', ' ', 'j', 'u', 'm', 'p', 's', ')', ' ', 'q', 'u', 'i', 'c', 'k'] [] [] =
        ([⟨⟨['f', 'o', 'x', ' ', 'j', 'u', 'm', 'p', 's'], [['f', 'o', 'x'], ['j', 'u', 'm', 'p', 's']]⟩, 1⟩], [⟨[' ', 'q', 'u', 'i', 'c', 'k'], [['q', 'u', 'i', 'c', 'k']]⟩]) ∧
      booleanSearch noStemmer (exampleIndex noStemmer) ['1', '(', 'f', 'o', 'x', ' ', 'j', 'u', 'm', 'p', 's', ')', ' ', 'q', 'u', 'i', 'c', 'k'] = some [2] ∧
      (∃ f r, filterBy (exampleIndex noStemmer) [⟨⟨['f', 'o', 'x', ' ', 'j', 'u', 'm', 'p', 's'], [['f', 'o', 'x'], ['j', 'u', 'm', 'p', 's']]⟩, 1⟩] = some f ∧
        booleanSearch noStemmer (exampleIndex noStemmer) ['1', '(', 'f', 'o', 'x', ' ', 'j', 'u', 'm', 'p', 's', ')', ' ', 'q', 'u', 'i', 'c', 'k'] = some r ∧
        r.Sorted (fun x y => x < y) ∧
        (∀ d, d ∈ f ↔ ∀ pq ∈ ([⟨⟨['f', 'o', 'x', ' ', 'j', 'u', 'm', 'p', 's'], [['f', 'o', 'x'], ['j', 'u', 'm', 'p', 's']]⟩, 1⟩] : List ProximityQuery),
          pq.satisfiedBy (exampleIndex noStemmer) d) ∧
        (∀ d, d ∈ r ↔ d ∈ f ∧ ∀ t ∈ (⟨[' ', 'q', 'u', 'i', 'c', 'k'], [['q', 'u', 'i', 'c', 'k']]⟩ : Query).terms,
          ∃ p, (exampleIndex noStemmer).postingOf t d = some p)) :=
  ⟨WF_exampleIndex noStemmer, by decide, by decide!,
    booleanSearch_proximity_and_freeText noStemmer (exampleIndex noStemmer)
      (WF_exampleIndex noStemmer) ['1', '(', 'f', 'o', 'x', ' ', 'j', 'u', 'm', 'p', 's', ')', ' ', 'q', 'u', 'i', 'c', 'k'] [⟨⟨['f', 'o', 'x', ' ', 'j', 'u', 'm', 'p', 's'], [['f', 'o', 'x'], ['j', 'u', 'm', 'p', 's']]⟩, 1⟩] ⟨[' ', 'q', 'u', 'i', 'c', 'k'], [['q', 'u', 'i', 'c', 'k']]⟩
      (by decide) (by decide) (by decide) (by decide)⟩

/-! ## Boolean search with several free-text sub-queries -/

/-- Claim C17, failing input. Documents 1 = `the quick fox`, 2 = `quick fox jumps`, query
`zzz 0(quick fox) quick`: the query parses to the FreeText sub-queries `zzz` and
`quick`, no document has a posting for `zzz`, and `booleanSearch` returns `[1, 2]`. -/
theorem booleanSearch_ignores_absent_term :
    buildQueries noStemmer ['z', 'z', 'z', ' ', '0', '(', 'q', 'u', 'i', 'c', 'k', ' ', 'f', 'o', 'x', ')', ' ', 'q', 'u', 'i', 'c', 'k'] [] [] =
        ([⟨⟨['q', 'u', 'i', 'c', 'k', ' ', 'f', 'o', 'x'], [['q', 'u', 'i', 'c', 'k'], ['f', 'o', 'x']]⟩, 0⟩], [⟨['z', 'z', 'z', ' '], [['z', 'z', 'z']]⟩, ⟨[' ', 'q', 'u', 'i', 'c', 'k'], [['q', 'u', 'i', 'c', 'k']]⟩]) ∧
      booleanSearch noStemmer (exampleIndex noStemmer) ['z', 'z', 'z', ' ', '0', '(', 'q', 'u', 'i', 'c', 'k', ' ', 'f', 'o', 'x', ')', ' ', 'q', 'u', 'i', 'c', 'k'] = some [1, 2] ∧
      (exampleIndex noStemmer).postingOf ['z', 'z', 'z'] 1 = none ∧
      (exampleIndex noStemmer).postingOf ['z', 'z', 'z'] 2 = none := by
  refine ⟨by decide, by decide!, by decide, by decide⟩

/-- Claim C18, failing input. Documents 1 = `the quick fox`, 2 = `quick fox jumps`, query
`zzz 1(fox jumps) quick`: the proximity filter is `[2]`, document 1 has no posting
for `jumps`, and `booleanSearch` returns `[1, 2]`. -/
theorem booleanSearch_escapes_proximity_filter :
    buildQueries noStemmer ['z', 'z', 'z', ' ', '1', '(', 'f', 'o', 'x', ' ', 'j', 'u', 'm', 'p', 's', ')', ' ', 'q', 'u', 'i', 'c', 'k'] [] [] =
        ([⟨⟨['f', 'o', 'x', ' ', 'j', 'u', 'm', 'p', 's'], [['f', 'o', 'x'], ['j', 'u', 'm', 'p', 's']]⟩, 1⟩], [⟨['z', 'z', 'z', ' '], [['z', 'z', 'z']]⟩, ⟨[' ', 'q', 'u', 'i', 'c', 'k'], [['q', 'u', 'i', 'c', 'k']]⟩]) ∧
      filterBy (exampleIndex noStemmer) [⟨⟨['f', 'o', 'x', ' ', 'j', 'u', 'm', 'p', 's'], [['f', 'o', 'x'], ['j', 'u', 'm', 'p', 's']]⟩, 1⟩] = some [2] ∧
      booleanSearch noStemmer (exampleIndex noStemmer) ['z', 'z', 'z', ' ', '1', '(', 'f', 'o', 'x', ' ', 'j', 'u', 'm', 'p', 's', ')', ' ', 'q', 'u', 'i', 'c', 'k'] = some [1, 2] ∧
      (exampleIndex noStemmer).postingOf ['j', 'u', 'm', 'p', 's'] 1 = none ∧
      ¬ (⟨⟨['f', 'o', 'x', ' ', 'j', 'u', 'm', 'p', 's'], [['f', 'o', 'x'], ['j', 'u', 'm', 'p', 's']]⟩, 1⟩ : ProximityQuery).satisfiedBy (exampleIndex noStemmer) 1 := by
  have hnone : (exampleIndex noStemmer).postingOf ['j', 'u', 'm', 'p', 's'] 1 = none := by decide
  refine ⟨by decide, by decide!, by decide!, hnone, ?_⟩
  rintro ⟨t0, t1, tail, p1, p2, ht, _, h2, _⟩
  have e1 : ['j', 'u', 'm', 'p', 's'] = t1 := (List.cons.inj (List.cons.inj ht).2).1
  rw [← e1, hnone] at h2
  exact absurd h2 (by simp)

/-- Claim C19, failing input. Documents 1 = `the quick fox`, 2 = `quick fox jumps`, query
`zzz 0(quick fox) fox`: the proximity filter is `[1, 2]`, the running intersection
after the FreeText sub-query `zzz` is empty, and `booleanSearch` returns `[1, 2]`. -/
theorem booleanSearch_nonempty_after_empty_step :
    buildQueries noStemmer ['z', 'z', 'z', ' ', '0', '(', 'q', 'u', 'i', 'c', 'k', ' ', 'f', 'o', 'x', ')', ' ', 'f', 'o', 'x'] [] [] =
        ([⟨⟨['q', 'u', 'i', 'c', 'k', ' ', 'f', 'o', 'x'], [['q', 'u', 'i', 'c', 'k'], ['f', 'o', 'x']]⟩, 0⟩], [⟨['z', 'z', 'z', ' '], [['z', 'z', 'z']]⟩, ⟨[' ', 'f', 'o', 'x'], [['f', 'o', 'x']]⟩]) ∧
      filterBy (exampleIndex noStemmer) [⟨⟨['q', 'u', 'i', 'c', 'k', ' ', 'f', 'o', 'x'], [['q', 'u', 'i', 'c', 'k'], ['f', 'o', 'x']]⟩, 0⟩] = some [1, 2] ∧
      intersectWithQuery (exampleIndex noStemmer) [1, 2] ⟨['z', 'z', 'z', ' '], [['z', 'z', 'z']]⟩ = [] ∧
      intersectWithQuery (exampleIndex noStemmer) [] ⟨[' ', 'f', 'o', 'x'], [['f', 'o', 'x']]⟩ = [1, 2] ∧
      booleanSearch noStemmer (exampleIndex noStemmer) ['z', 'z', 'z', ' ', '0', '(', 'q', 'u', 'i', 'c', 'k', ' ', 'f', 'o', 'x', ')', ' ', 'f', 'o', 'x'] = some [1, 2] := by
  refine ⟨by decide, by decide!, by decide!, by decide!, by decide!⟩

/-- Claim C20, failing input. Documents 1 = `the quick fox`, 2 = `quick fox jumps`, query
`quick 1(fox)`: the block normalizes to the single term `fox`, a ProximityQuery
with that one term is emitted, and `filterBy` reads `terms[1]` past the end of its
term vector, so `booleanSearch` has no defined result; the remaining sub-query
`quick` alone evaluates to `[1, 2]`. -/
theorem booleanSearch_one_term_block_undefined :
    buildQueries noStemmer ['q', 'u', 'i', 'c', 'k', ' ', '1', '(', 'f', 'o', 'x', ')'] [] [] =
        ([⟨⟨['f', 'o', 'x'], [['f', 'o', 'x']]⟩, 1⟩], [⟨['q', 'u', 'i', 'c', 'k', ' '], [['q', 'u', 'i', 'c', 'k']]⟩]) ∧
      filterBy (exampleIndex noStemmer) [⟨⟨['f', 'o', 'x'], [['f', 'o', 'x']]⟩, 1⟩] = none ∧
      booleanSearch noStemmer (exampleIndex noStemmer) ['q', 'u', 'i', 'c', 'k', ' ', '1', '(', 'f', 'o', 'x', ')'] = none ∧
      booleanSearch noStemmer (exampleIndex noStemmer) ['q', 'u', 'i', 'c', 'k', ' '] = some [1, 2] := by
  refine ⟨by decide, by decide, by decide, by decide!⟩

/-! ## Positions recorded by `addText` -/

/-- Claim C26, failing input. The call `addText("touch-screen fix", 1, 5)` on the empty index:
the text normalizes to `touch`, `screen`, `fix`; `touch` and `screen` are both
recorded at position 5 and `fix` at position 6 (not 5, 6, 7), and `pos` is 7 on
return. -/
theorem addText_second_token_position :
    tokenize noStemmer ['t', 'o', 'u', 'c', 'h', '-', 's', 'c', 'r', 'e', 'e', 'n', ' ', 'f', 'i', 'x'] = [['t', 'o', 'u', 'c', 'h'], ['s', 'c', 'r', 'e', 'e', 'n'], ['f', 'i', 'x']] ∧
      (Index.empty.addText noStemmer ['t', 'o', 'u', 'c', 'h', '-', 's', 'c', 'r', 'e', 'e', 'n', ' ', 'f', 'i', 'x'] 1 5).1.positionsOf ['t', 'o', 'u', 'c', 'h'] 1 = [5] ∧
      (Index.empty.addText noStemmer ['t', 'o', 'u', 'c', 'h', '-', 's', 'c', 'r', 'e', 'e', 'n', ' ', 'f', 'i', 'x'] 1 5).1.positionsOf ['s', 'c', 'r', 'e', 'e', 'n'] 1 = [5] ∧
      (Index.empty.addText noStemmer ['t', 'o', 'u', 'c', 'h', '-', 's', 'c', 'r', 'e', 'e', 'n', ' ', 'f', 'i', 'x'] 1 5).1.positionsOf ['f', 'i', 'x'] 1 = [6] ∧
      (Index.empty.addText noStemmer ['t', 'o', 'u', 'c', 'h', '-', 's', 'c', 'r', 'e', 'e', 'n', ' ', 'f', 'i', 'x'] 1 5).2 = 7 := by
  decide

/-! ## Boolean search: empty filter, ordering of the result -/

/-- Claim C27. For a query that parses to at least one proximity sub-query, if the combined
proximity filter computed by `filterBy` is empty then `booleanSearch` returns the
empty sequence, whatever free-text sub-queries the query also contains. -/
theorem booleanSearch_empty_filter (ks : KrovetzStemmer) (idx : Index) (q : Str)
    (hne : (buildQueries ks q [] []).1 ≠ [])
    (hempty : filterBy idx (buildQueries ks q [] []).1 = some []) :
    booleanSearch ks idx q = some [] := by
  have hlen : 0 < (buildQueries ks q [] []).1.length := List.length_pos.mpr hne
  unfold booleanSearch
  simp [hlen, hempty]

/-- Witness for C27: documents 1 = `the quick fox`, 2 = `quick fox jumps`, query
`0(fox quick) quick`; no document has `quick` right after `fox`, so the filter is
empty and so is the result, although both documents contain `quick`. -/
theorem booleanSearch_empty_filter_witness :
    (buildQueries noStemmer ['0', '(', 'f', 'o', 'x', ' ', 'q', 'u', 'i', 'c', 'k', ')', ' ', 'q', 'u', 'i', 'c', 'k'] [] []).1 ≠ [] ∧
      (∀ pq ∈ (buildQueries noStemmer ['0', '(', 'f', 'o', 'x', ' ', 'q', 'u', 'i', 'c', 'k', ')', ' ', 'q', 'u', 'i', 'c', 'k'] [] []).1, pq.toQuery.terms.length = 2) ∧
      (buildQueries noStemmer ['0', '(', 'f', 'o', 'x', ' ', 'q', 'u', 'i', 'c', 'k', ')', ' ', 'q', 'u', 'i', 'c', 'k'] [] []).2 = [⟨[' ', 'q', 'u', 'i', 'c', 'k'], [['q', 'u', 'i', 'c', 'k']]⟩] ∧
      filterBy (exampleIndex noStemmer) (buildQueries noStemmer ['0', '(', 'f', 'o', 'x', ' ', 'q', 'u', 'i', 'c', 'k', ')', ' ', 'q', 'u', 'i', 'c', 'k'] [] []).1 = some [] ∧
      booleanSearch noStemmer (exampleIndex noStemmer) ['0', '(', 'f', 'o', 'x', ' ', 'q', 'u', 'i', 'c', 'k', ')', ' ', 'q', 'u', 'i', 'c', 'k'] = some [] :=
  ⟨by decide, by decide, by decide, by decide!,
    booleanSearch_empty_filter noStemmer (exampleIndex noStemmer) ['0', '(', 'f', 'o', 'x', ' ', 'q', 'u', 'i', 'c', 'k', ')', ' ', 'q', 'u', 'i', 'c', 'k'] (by decide)
      (by decide!)⟩

theorem sorted_intersectWithQuery (idx : Index) (hwf : idx.WF) (filterSet : List Nat)
    (fq : Query) (hfs : filterSet.Sorted (fun x y => x < y)) :
    (intersectWithQuery idx filterSet fq).Sorted (fun x y => x < y) := by
  have hloop : (intersectWithQueryLoop idx 0 fq.terms []).Sorted (fun x y => x < y) := by
    by_cases hterms : fq.terms = []
    · rw [hterms, intersectWithQueryLoop_nil]
      exact List.sorted_nil
    · exact (intersectWithQueryLoop_zero idx hwf fq.terms hterms []).1
  unfold intersectWithQuery
  split
  · exact sorted_intersect _ _ hfs hloop
  · exact hloop

theorem sorted_foldl_intersectWithQuery (idx : Index) (hwf : idx.WF) (fqs : List Query) :
    ∀ acc : List Nat, acc.Sorted (fun x y => x < y) →
      (fqs.foldl (fun fs q => intersectWithQuery idx fs q) acc).Sorted (fun x y => x < y) := by
  induction fqs with
  | nil => intro acc hacc; exact hacc
  | cons fq rest ih =>
    intro acc hacc
    exact ih _ (sorted_intersectWithQuery idx hwf acc fq hacc)

/-- The result of `booleanSearch` is defined and strictly ascending whenever the posting
lists satisfy the representation invariant and the proximity sub-queries have at
least two terms. -/
theorem sorted_booleanSearch (ks : KrovetzStemmer) (idx : Index) (hwf : idx.WF) (q : Str)
    (hpqs : ∀ pq ∈ (buildQueries ks q [] []).1, 2 ≤ pq.toQuery.terms.length) :
    ∃ r, booleanSearch ks idx q = some r ∧ r.Sorted (fun x y => x < y) := by
  by_cases hne : (buildQueries ks q [] []).1 = []
  · refine ⟨_, ?_, sorted_foldl_intersectWithQuery idx hwf (buildQueries ks q [] []).2 []
      List.sorted_nil⟩
    unfold booleanSearch
    simp [hne]
  · obtain ⟨f, hf, hfs, _⟩ := filterBy_spec idx hwf _ hne hpqs
    have hlen : 0 < (buildQueries ks q [] []).1.length := List.length_pos.mpr hne
    by_cases hfe : f = []
    · refine ⟨[], ?_, List.sorted_nil⟩
      unfold booleanSearch
      simp [hlen, hf, hfe]
    · have hflen : 0 < f.length := List.length_pos.mpr hfe
      refine ⟨_, ?_, sorted_foldl_intersectWithQuery idx hwf (buildQueries ks q [] []).2 f hfs⟩
      unfold booleanSearch
      simp [hlen, hf, hflen]

/-- Claim C28. For every index built by `addTerm` calls and every query string whose
proximity sub-queries all have (at least) two terms, the docID sequence returned by
`booleanSearch` is strictly ascending: sorted, without duplicates. -/
theorem booleanSearch_strictly_ascending (ks : KrovetzStemmer) (calls : List AddTermCall)
    (q : Str) (hpqs : ∀ pq ∈ (buildQueries ks q [] []).1, 2 ≤ pq.toQuery.terms.length) :
    ∃ r, booleanSearch ks (Index.empty.addTerms calls) q = some r ∧
      r.Sorted (fun x y => x < y) ∧ r.Nodup := by
  obtain ⟨r, hr, hrs⟩ := sorted_booleanSearch ks (Index.empty.addTerms calls)
    (Index.WF_addTerms calls Index.empty Index.WF_empty) q hpqs
  exact ⟨r, hr, hrs, List.Sorted.nodup hrs⟩

/-- Witness for C28: the index built by six `addTerm` calls (document 2 before document
1) and the query `zzz 0(quick fox) quick`, whose result is `[1, 2]`. -/
theorem booleanSearch_strictly_ascending_witness :
    (∀ pq ∈ (buildQueries noStemmer ['z', 'z', 'z', ' ', '0', '(', 'q', 'u', 'i', 'c', 'k', ' ', 'f', 'o', 'x', ')', ' ', 'q', 'u', 'i', 'c', 'k'] [] []).1, 2 ≤ pq.toQuery.terms.length) ∧
      booleanSearch noStemmer
        (Index.empty.addTerms [⟨['q', 'u', 'i', 'c', 'k'], 2, 1⟩, ⟨['f', 'o', 'x'], 2, 2⟩, ⟨['j', 'u', 'm', 'p', 's'], 2, 3⟩,
          ⟨['q', 'u', 'i', 'c', 'k'], 1, 2⟩, ⟨['f', 'o', 'x'], 1, 3⟩]) ['z', 'z', 'z', ' ', '0', '(', 'q', 'u', 'i', 'c', 'k', ' ', 'f', 'o', 'x', ')', ' ', 'q', 'u', 'i', 'c', 'k'] = some [1, 2] ∧
      (∃ r, booleanSearch noStemmer
          (Index.empty.addTerms [⟨['q', 'u', 'i', 'c', 'k'], 2, 1⟩, ⟨['f', 'o', 'x'], 2, 2⟩, ⟨['j', 'u', 'm', 'p', 's'], 2, 3⟩,
            ⟨['q', 'u', 'i', 'c', 'k'], 1, 2⟩, ⟨['f', 'o', 'x'], 1, 3⟩]) ['z', 'z', 'z', ' ', '0', '(', 'q', 'u', 'i', 'c', 'k', ' ', 'f', 'o', 'x', ')', ' ', 'q', 'u', 'i', 'c', 'k'] = some r ∧
        r.Sorted (fun x y => x < y) ∧ r.Nodup) :=
  ⟨by decide, by decide!,
    booleanSearch_strictly_ascending noStemmer
      [⟨['q', 'u', 'i', 'c', 'k'], 2, 1⟩, ⟨['f', 'o', 'x'], 2, 2⟩, ⟨['j', 'u', 'm', 'p', 's'], 2, 3⟩, ⟨['q', 'u', 'i', 'c', 'k'], 1, 2⟩, ⟨['f', 'o', 'x'], 1, 3⟩] ['z', 'z', 'z', ' ', '0', '(', 'q', 'u', 'i', 'c', 'k', ' ', 'f', 'o', 'x', ')', ' ', 'q', 'u', 'i', 'c', 'k']
      (by decide)⟩

/-! ## Sub-queries without terms, closing brackets without a block -/

/-- Claim C29, failing input. The query `0(quick fox) ` (a space after the closing bracket):
the trailing accumulator normalizes to no term and is still emitted as a FreeText
sub-query without terms; over documents 1 = `the quick fox`, 2 = `quick fox jumps`
`booleanSearch` then returns the empty sequence, whereas `0(quick fox)` returns
`[1, 2]`. -/
theorem buildQueries_emits_empty_freeText :
    tokenize noStemmer [' '] = [] ∧
      buildQueries noStemmer ['0', '(', 'q', 'u', 'i', 'c', 'k', ' ', 'f', 'o', 'x', ')', ' '] [] [] = ([⟨⟨['q', 'u', 'i', 'c', 'k', ' ', 'f', 'o', 'x'], [['q', 'u', 'i', 'c', 'k'], ['f', 'o', 'x']]⟩, 0⟩], [⟨[' '], []⟩]) ∧
      ¬ (∀ fq ∈ (buildQueries noStemmer ['0', '(', 'q', 'u', 'i', 'c', 'k', ' ', 'f', 'o', 'x', ')', ' '] [] []).2, 1 ≤ fq.terms.length) ∧
      booleanSearch noStemmer (exampleIndex noStemmer) ['0', '(', 'q', 'u', 'i', 'c', 'k', ' ', 'f', 'o', 'x', ')', ' '] = some [] ∧
      booleanSearch noStemmer (exampleIndex noStemmer) ['0', '(', 'q', 'u', 'i', 'c', 'k', ' ', 'f', 'o', 'x', ')'] = some [1, 2] := by
  refine ⟨by decide, by decide, by decide, by decide!, by decide!⟩

theorem closeBlock_proxWnd (ks : KrovetzStemmer) (st : ParseState) :
    (closeBlock ks st).proxWnd = st.proxWnd ∧
      ∀ pq ∈ (closeBlock ks st).proxQueries,
        pq ∈ st.proxQueries ∨ pq.m_proximityWnd = st.proxWnd := by
  unfold closeBlock
  by_cases h : st.curQuery = []
  · simp only [ne_eq, h, not_true_eq_false, if_false, true_and]
    exact fun pq hpq => Or.inl hpq
  · by_cases h2 : (ProximityQuery.make ks st.curQuery st.proxWnd).terms.length > 0
    · simp only [ne_eq, h, not_false_eq_true, if_true, h2, true_and]
      intro pq hpq
      rcases List.mem_append.mp hpq with hm | hm
      · exact Or.inl hm
      · right
        rw [List.mem_singleton.mp hm]
        rfl
    · simp only [ne_eq, h, not_false_eq_true, if_true, h2, if_false, true_and]
      intro pq hpq
      exact Or.inl hpq

/-- Where no digit is followed by an opening bracket the window variable keeps its value,
and every proximity query emitted carries that value. -/
theorem buildQueriesLoop_proxWnd (ks : KrovetzStemmer) (text : List Char) (st : ParseState)
    (hopen : hasDigitParen text = false) :
    (buildQueriesLoop ks text st).proxWnd = st.proxWnd ∧
      ∀ pq ∈ (buildQueriesLoop ks text st).proxQueries,
        pq ∈ st.proxQueries ∨ pq.m_proximityWnd = st.proxWnd := by
  induction text, st using buildQueriesLoop.induct ks with
  | case1 st =>
    simp only [buildQueriesLoop, true_and]
    exact fun pq hpq => Or.inl hpq
  | case2 st =>
    simp only [buildQueriesLoop, if_true]
    exact closeBlock_proxWnd ks st
  | case3 c st hc =>
    simp only [buildQueriesLoop, hc, if_false, true_and]
    exact fun pq hpq => Or.inl hpq
  | case4 c c' text' st hop ih =>
    simp [hasDigitParen, hop.1, hop.2] at hopen
  | case5 c' text' st hno ih =>
    have hrest : hasDigitParen (c' :: text') = false := by
      simp only [hasDigitParen, Bool.or_eq_false_iff] at hopen
      exact hopen.2
    have h := ih hrest
    have hc := closeBlock_proxWnd ks st
    rw [buildQueriesLoop, if_neg hno, if_pos rfl]
    refine ⟨h.1.trans hc.1, ?_⟩
    intro pq hpq
    rcases h.2 pq hpq with hm | hm
    · exact hc.2 pq hm
    · exact Or.inr (hm.trans hc.1)
  | case6 c c' text' st hno hc ih =>
    have hrest : hasDigitParen (c' :: text') = false := by
      simp only [hasDigitParen, Bool.or_eq_false_iff] at hopen
      exact hopen.2
    rw [buildQueriesLoop, if_neg hno, if_neg hc]
    exact ih hrest

/-- Claim C30 as stated fails on the query `quick fox)`: it contains no digit followed by
an opening bracket, and `buildQueries` emits the ProximityQuery (`quick`, `fox`)
with window 0. -/
theorem buildQueries_close_without_block :
    hasDigitParen ['q', 'u', 'i', 'c', 'k', ' ', 'f', 'o', 'x', ')'] = false ∧
      buildQueries noStemmer ['q', 'u', 'i', 'c', 'k', ' ', 'f', 'o', 'x', ')'] [] [] = ([⟨⟨['q', 'u', 'i', 'c', 'k', ' ', 'f', 'o', 'x'], [['q', 'u', 'i', 'c', 'k'], ['f', 'o', 'x']]⟩, 0⟩], []) ∧
      (buildQueries noStemmer ['q', 'u', 'i', 'c', 'k', ' ', 'f', 'o', 'x', ')'] [] []).1 ≠ [] := by
  decide

/-- Claim C30, amended. For every query string that contains no digit immediately followed
by an opening bracket, `buildQueries` emits no ProximityQuery if the string contains
no closing bracket either; and whatever closing brackets it contains, every
ProximityQuery emitted has window 0. -/
theorem buildQueries_no_block_opened (ks : KrovetzStemmer) (q : Str)
    (hopen : hasDigitParen q = false) :
    (')' ∉ q → (buildQueries ks q [] []).1 = []) ∧
      ∀ pq ∈ (buildQueries ks q [] []).1, pq.getProximityWnd = 0 := by
  constructor
  · intro hclose
    rw [buildQueries_fst, buildQueriesLoop_proxQueries_of_no_close ks q _ hclose]
  · intro pq hpq
    rw [buildQueries_fst] at hpq
    rcases (buildQueriesLoop_proxWnd ks q ⟨[], 0, [], []⟩ hopen).2 pq hpq with h | h
    · simp at h
    · exact h

/-- Witness for C30 (amended): `quick fox` emits no ProximityQuery, and the one emitted by
`quick fox)` has window 0. -/
theorem buildQueries_no_block_opened_witness :
    hasDigitParen ['q', 'u', 'i', 'c', 'k', ' ', 'f', 'o', 'x'] = false ∧ ')' ∉ ['q', 'u', 'i', 'c', 'k', ' ', 'f', 'o', 'x'] ∧ hasDigitParen ['q', 'u', 'i', 'c', 'k', ' ', 'f', 'o', 'x', ')'] = false ∧
      (buildQueries noStemmer ['q', 'u', 'i', 'c', 'k', ' ', 'f', 'o', 'x'] [] []).1 = [] ∧
      ∀ pq ∈ (buildQueries noStemmer ['q', 'u', 'i', 'c', 'k', ' ', 'f', 'o', 'x', ')'] [] []).1, pq.getProximityWnd = 0 :=
  ⟨by decide, by decide, by decide,
    (buildQueries_no_block_opened noStemmer ['q', 'u', 'i', 'c', 'k', ' ', 'f', 'o', 'x'] (by decide)).1 (by decide),
    (buildQueries_no_block_opened noStemmer ['q', 'u', 'i', 'c', 'k', ' ', 'f', 'o', 'x', ')'] (by decide)).2⟩

/-! ## Scoring -/

theorem termWeight_real (N df tf : Nat) : termWeight realArith N df tf = specWeight N df tf := by
  simp [termWeight, realArith, specWeight]

theorem specScore_nil (idx : Index) (N d : Nat) : specScore idx N d [] = 0 := by
  simp [specScore]

theorem specScore_cons (idx : Index) (N d : Nat) (t : Str) (rest : List Str) :
    specScore idx N d (t :: rest) =
      (match specEntryWeight idx N d t with
        | some w => w
        | none => 0) + specScore idx N d rest := by
  unfold specScore
  rw [List.filterMap_cons]
  cases specEntryWeight idx N d t <;> simp

/-- The accumulated score after the term loop, over the reals. -/
theorem scoreLoop_snd_real (idx : Index) (N d : Nat) (terms : List Str) :
    ∀ (sc : ℝ) (m : Bool),
      (scoreLoop realArith idx N d terms sc m).2 = sc + specScore idx N d terms := by
  induction terms with
  | nil =>
    intro sc m
    simp [scoreLoop, specScore_nil]
  | cons t rest ih =>
    intro sc m
    rw [specScore_cons]
    unfold scoreLoop specEntryWeight
    rw [getPostings_fst, getTermInfo_fst]
    cases hf : mapFind t idx.m_terms with
    | none => simp [ih]
    | some ti =>
      simp only [Option.map_some']
      cases hp : mapFind (toUInt d) ti.postings with
      | none => simp [ih]
      | some p =>
        simp only [ih, termWeight_real]
        have hadd : realArith.add sc (specWeight N ti.df p.tf) = sc + specWeight N ti.df p.tf :=
          rfl
        rw [hadd, add_assoc]

theorem score_snd_real (coll : List Nat) (idx : Index) (pqs : List ProximityQuery)
    (fqs : List Query) (d : Nat) :
    (score realArith coll idx pqs fqs d).2 =
      specScore idx coll.length d (scoreAllTerms pqs fqs) := by
  unfold score
  rw [scoreLoop_snd_real]
  simp [realArith]

theorem specScore_replicate (idx : Index) (N d : Nat) (t : Str) (w : ℝ)
    (hw : specEntryWeight idx N d t = some w) (k : Nat) :
    specScore idx N d (List.replicate k t) = (k : ℝ) * w := by
  induction k with
  | zero => simp [specScore_nil]
  | succ n ih =>
    rw [List.replicate_succ, specScore_cons, hw, ih]
    push_cast
    ring

theorem specWeight_two_one_one : specWeight 2 1 1 = 1 := by
  simp [specWeight, Real.logb_self_eq_one]

/-- Claim C21. Over the reals, `score` returns the sum, over every entry `t` of the
combined term list (all proximity-query terms followed by all free-text terms,
duplicates kept) that has a posting for `d`, of `(1 + log2(tf(t,d))) * log2(N / df(t))`
with `N` the number of collection docIDs; a term making up the list `k` times
contributes `k` times its weight; and with `N = 2`, `df = 1`, `tf = 1` and a single
query term the score is 1. -/
theorem score_eq_specScore (coll : List Nat) (idx : Index) (pqs : List ProximityQuery)
    (fqs : List Query) (d : Nat) :
    (score realArith coll idx pqs fqs d).2 =
        (((pqs.map (fun q => q.toQuery.m_terms)).flatten ++
            (fqs.map (fun q => q.m_terms)).flatten).filterMap
          (specEntryWeight idx coll.length d)).sum ∧
      (∀ (k : Nat) (t : Str) (ti : TermInfo) (p : Posting),
        scoreAllTerms pqs fqs = List.replicate k t → (idx.getTermInfo t).1 = some ti →
        mapFind (toUInt d) ti.postings = some p →
        (score realArith coll idx pqs fqs d).2 =
          (k : ℝ) * ((1 + Real.logb 2 (p.tf : ℝ)) *
            Real.logb 2 ((coll.length : ℝ) / (ti.df : ℝ)))) ∧
      (∀ (t : Str) (ti : TermInfo) (p : Posting),
        scoreAllTerms pqs fqs = [t] → (idx.getTermInfo t).1 = some ti →
        mapFind (toUInt d) ti.postings = some p →
        coll.length = 2 → ti.df = 1 → p.tf = 1 →
        (score realArith coll idx pqs fqs d).2 = 1) := by
  have hentry : ∀ (t : Str) (ti : TermInfo) (p : Posting),
      (idx.getTermInfo t).1 = some ti → mapFind (toUInt d) ti.postings = some p →
      specEntryWeight idx coll.length d t = some (specWeight coll.length ti.df p.tf) := by
    intro t ti p hti hp
    unfold specEntryWeight
    rw [hti]
    simp only [hp]
  refine ⟨?_, ?_, ?_⟩
  · rw [score_snd_real]
    rfl
  · intro k t ti p hall hti hp
    rw [score_snd_real, hall, specScore_replicate idx _ d t _ (hentry t ti p hti hp) k]
    rfl
  · intro t ti p hall hti hp hN hdf htf
    have hrep : scoreAllTerms pqs fqs = List.replicate 1 t := by simpa using hall
    rw [score_snd_real, hrep, specScore_replicate idx _ d t _ (hentry t ti p hti hp) 1,
      hN, hdf, htf, specWeight_two_one_one]
    simp

/-- Witness for C21: documents 1 = `the quick fox`, 2 = `quick fox jumps` (`N = 2`); the term
`jumps` has `df = 1` and `tf = 1` in document 2, so the query `jumps` scores 1 for
document 2 and the query `jumps jumps` scores 2. -/
theorem score_eq_specScore_witness :
    scoreAllTerms [] [⟨['j', 'u', 'm', 'p', 's'], [['j', 'u', 'm', 'p', 's']]⟩] = [['j', 'u', 'm', 'p', 's']] ∧
      ((exampleIndex noStemmer).getTermInfo ['j', 'u', 'm', 'p', 's']).1 = some ⟨['j', 'u', 'm', 'p', 's'], 1, [(2, ⟨2, 1, [3]⟩)]⟩ ∧
      mapFind (toUInt 2) [(2, (⟨2, 1, [3]⟩ : Posting))] = some ⟨2, 1, [3]⟩ ∧
      (score realArith [1, 2] (exampleIndex noStemmer) [] [⟨['j', 'u', 'm', 'p', 's'], [['j', 'u', 'm', 'p', 's']]⟩] 2).2 = 1 ∧
      (score realArith [1, 2] (exampleIndex noStemmer) [] [⟨['j', 'u', 'm', 'p', 's', ' ', 'j', 'u', 'm', 'p', 's'], [['j', 'u', 'm', 'p', 's'], ['j', 'u', 'm', 'p', 's']]⟩] 2).2 =
        ((2 : Nat) : ℝ) * ((1 + Real.logb 2 ((1 : Nat) : ℝ)) *
          Real.logb 2 (((2 : Nat) : ℝ) / ((1 : Nat) : ℝ))) :=
  ⟨by decide, by decide, by decide,
    (score_eq_specScore [1, 2] (exampleIndex noStemmer) [] [⟨['j', 'u', 'm', 'p', 's'], [['j', 'u', 'm', 'p', 's']]⟩] 2).2.2
      ['j', 'u', 'm', 'p', 's'] ⟨['j', 'u', 'm', 'p', 's'], 1, [(2, ⟨2, 1, [3]⟩)]⟩ ⟨2, 1, [3]⟩
      (by decide) (by decide) (by decide) rfl rfl rfl,
    (score_eq_specScore [1, 2] (exampleIndex noStemmer) [] [⟨['j', 'u', 'm', 'p', 's', ' ', 'j', 'u', 'm', 'p', 's'], [['j', 'u', 'm', 'p', 's'], ['j', 'u', 'm', 'p', 's']]⟩] 2).2.1
      2 ['j', 'u', 'm', 'p', 's'] ⟨['j', 'u', 'm', 'p', 's'], 1, [(2, ⟨2, 1, [3]⟩)]⟩ ⟨2, 1, [3]⟩
      (by decide) (by decide) (by decide)⟩

/-! ## Ranked search -/

theorem mem_multimapInsert {F : Type} (lt : F → F → Bool) (e x : F × Nat)
    (l : List (F × Nat)) : x ∈ multimapInsert lt e l ↔ x = e ∨ x ∈ l := by
  induction l with
  | nil => simp [multimapInsert]
  | cons hd tl ih =>
    by_cases h : lt e.1 hd.1 = true
    · simp [multimapInsert, h]
    · rw [multimapInsert, if_neg h]
      simp only [List.mem_cons, ih]
      tauto

theorem postingOf_eq_some_iff (idx : Index) (t : Str) (k : Nat) (p : Posting) :
    idx.postingOf t k = some p ↔
      ∃ ti, mapFind t idx.m_terms = some ti ∧ mapFind k ti.postings = some p := by
  unfold Index.postingOf
  rw [getPostings_fst]
  cases mapFind t idx.m_terms <;> simp

/-- The flag returned by the term loop of `score`. -/
theorem scoreLoop_fst {F : Type} (ar : Arith F) (idx : Index) (N d : Nat) (terms : List Str) :
    ∀ (sc : F) (m : Bool),
      (scoreLoop ar idx N d terms sc m).1 = true ↔
        (m = true ∨ ∃ t ∈ terms, ∃ p, idx.postingOf t (toUInt d) = some p) := by
  induction terms with
  | nil =>
    intro sc m
    simp [scoreLoop]
  | cons t rest ih =>
    intro sc m
    have hpost : (∃ p, idx.postingOf t (toUInt d) = some p) ↔
        ∃ ti p, mapFind t idx.m_terms = some ti ∧ mapFind (toUInt d) ti.postings = some p := by
      constructor
      · rintro ⟨p, hp⟩
        obtain ⟨ti, h1, h2⟩ := (postingOf_eq_some_iff idx t _ p).mp hp
        exact ⟨ti, p, h1, h2⟩
      · rintro ⟨ti, p, h1, h2⟩
        exact ⟨p, (postingOf_eq_some_iff idx t _ p).mpr ⟨ti, h1, h2⟩⟩
    unfold scoreLoop
    rw [getPostings_fst, getTermInfo_fst]
    simp only [List.mem_cons, exists_eq_or_imp, hpost]
    cases hf : mapFind t idx.m_terms with
    | none => simp [ih]
    | some ti =>
      simp only [Option.map_some']
      cases hp : mapFind (toUInt d) ti.postings with
      | none => simp [ih, hp]
      | some p => simp [ih, hp]

theorem score_fst {F : Type} (ar : Arith F) (coll : List Nat) (idx : Index)
    (pqs : List ProximityQuery) (fqs : List Query) (d : Nat) :
    (score ar coll idx pqs fqs d).1 = true ↔
      ∃ t ∈ scoreAllTerms pqs fqs, ∃ p, idx.postingOf t (toUInt d) = some p := by
  unfold score
  rw [scoreLoop_fst]
  simp

theorem mem_rankedSearchLoop {F : Type} (ar : Arith F) (coll : List Nat) (idx : Index)
    (pqs : List ProximityQuery) (fqs : List Query) (searchSet : List Nat) :
    ∀ (acc : List (F × Nat)) (x : F × Nat),
      x ∈ rankedSearchLoop ar coll idx pqs fqs searchSet acc ↔
        x ∈ acc ∨ (x.2 ∈ searchSet ∧ (score ar coll idx pqs fqs x.2).1 = true ∧
          x.1 = (score ar coll idx pqs fqs x.2).2) := by
  induction searchSet with
  | nil =>
    intro acc x
    simp [rankedSearchLoop]
  | cons d rest ih =>
    intro acc x
    by_cases hm : (score ar coll idx pqs fqs d).1 = true
    · rw [rankedSearchLoop, if_pos hm, ih, mem_multimapInsert]
      constructor
      · rintro ((h | h) | h)
        · right
          rw [h]
          exact ⟨List.mem_cons_self _ _, hm, rfl⟩
        · exact Or.inl h
        · exact Or.inr ⟨List.mem_cons_of_mem _ h.1, h.2⟩
      · rintro (h | ⟨h1, h2, h3⟩)
        · exact Or.inl (Or.inr h)
        · rcases List.mem_cons.mp h1 with h | h
          · left
            left
            exact Prod.ext (by rw [h3, h]) h
          · exact Or.inr ⟨h, h2, h3⟩
    · rw [rankedSearchLoop, if_neg hm, ih]
      constructor
      · rintro (h | h)
        · exact Or.inl h
        · exact Or.inr ⟨List.mem_cons_of_mem _ h.1, h.2⟩
      · rintro (h | ⟨h1, h2, h3⟩)
        · exact Or.inl h
        · rcases List.mem_cons.mp h1 with h | h
          · rw [h] at h2
            exact absurd h2 hm
          · exact Or.inr ⟨h, h2, h3⟩

/-- The entries of `rankedSearch`, where the candidate pool is defined: an entry for docID
`d` is returned if and only if `d` is in the candidate pool (the result of
`filterBy` when the query has proximity sub-queries, otherwise the collection's
docIDs) and at least one term of the combined query term list has a posting for `d`
(found, as in the source, under the `unsigned int` key of `d`). Where `filterBy`
reads out of range there is neither a pool nor a result. -/
theorem rankedSearch_entry_iff {F : Type} (ar : Arith F) (ks : KrovetzStemmer)
    (coll : List Nat) (idx : Index) (q : Str) (d : Nat) :
    (∃ res s, rankedSearch ar ks coll idx q = some res ∧ (s, d) ∈ res) ↔
      ((∃ pool, (if (buildQueries ks q [] []).1 = [] then some coll
            else filterBy idx (buildQueries ks q [] []).1) = some pool ∧ d ∈ pool) ∧
        ∃ t ∈ scoreAllTerms (buildQueries ks q [] []).1 (buildQueries ks q [] []).2,
          ∃ p, idx.postingOf t (toUInt d) = some p) := by
  have hset : rankedSearchSet coll idx (buildQueries ks q [] []).1 =
      (if (buildQueries ks q [] []).1 = [] then some coll
        else filterBy idx (buildQueries ks q [] []).1) := by
    unfold rankedSearchSet
    by_cases h : (buildQueries ks q [] []).1 = []
    · simp [h]
    · have hlen : 0 < (buildQueries ks q [] []).1.length := List.length_pos.mpr h
      simp [h, hlen]
  rw [← hset, ← score_fst ar coll idx]
  unfold rankedSearch
  cases hpool : rankedSearchSet coll idx (buildQueries ks q [] []).1 with
  | none => simp
  | some pool =>
    constructor
    · rintro ⟨res, s, hres, hs⟩
      have hres2 := Option.some.inj hres
      rw [← hres2] at hs
      rcases (mem_rankedSearchLoop ar coll idx _ _ pool [] (s, d)).mp hs with h | h
      · simp at h
      · exact ⟨⟨pool, rfl, h.1⟩, h.2.1⟩
    · rintro ⟨⟨pool2, hp2, h1⟩, h2⟩
      have hp3 := Option.some.inj hp2
      rw [← hp3] at h1
      exact ⟨_, (score ar coll idx (buildQueries ks q [] []).1 (buildQueries ks q [] []).2 d).2,
        rfl, (mem_rankedSearchLoop ar coll idx _ _ pool [] (_, d)).mpr (Or.inr ⟨h1, h2, rfl⟩)⟩

/-- On a well-formed index, a query all of whose proximity sub-queries carry at least two
terms has a defined ranked result. -/
theorem rankedSearch_produced {F : Type} (ar : Arith F) (ks : KrovetzStemmer)
    (coll : List Nat) (idx : Index) (hwf : idx.WF) (q : Str)
    (hpqs : ∀ pq ∈ (buildQueries ks q [] []).1, 2 ≤ pq.toQuery.terms.length) :
    ∃ res, rankedSearch ar ks coll idx q = some res := by
  unfold rankedSearch rankedSearchSet
  by_cases h : (buildQueries ks q [] []).1 = []
  · simp [h]
  · have hlen : 0 < (buildQueries ks q [] []).1.length := List.length_pos.mpr h
    obtain ⟨r, hr, _⟩ := filterBy_spec idx hwf _ h hpqs
    simp [hlen, hr]

/-- Claim C22, failing input. Documents 1 = `the quick fox`, 2 = `quick fox jumps`, collection
`[1, 2]`, ranked query `jumps 1(fox)`: the term `jumps` of the combined term list has
a posting for document 2, but the block normalizes to the single term `fox`, a
ProximityQuery with that one term is emitted, and `filterBy` reads `terms[1]` past
the end of its term vector, so neither the candidate pool nor `rankedSearch` has a
defined result and no entry for document 2 is returned; the remaining sub-query
`jumps` alone returns an entry for document 2. -/
theorem rankedSearch_one_term_block_undefined :
    buildQueries noStemmer ['j', 'u', 'm', 'p', 's', ' ', '1', '(', 'f', 'o', 'x', ')'] [] [] =
        ([⟨⟨['f', 'o', 'x'], [['f', 'o', 'x']]⟩, 1⟩], [⟨['j', 'u', 'm', 'p', 's', ' '], [['j', 'u', 'm', 'p', 's']]⟩]) ∧
      ['j', 'u', 'm', 'p', 's'] ∈ scoreAllTerms (buildQueries noStemmer ['j', 'u', 'm', 'p', 's', ' ', '1', '(', 'f', 'o', 'x', ')'] [] []).1
        (buildQueries noStemmer ['j', 'u', 'm', 'p', 's', ' ', '1', '(', 'f', 'o', 'x', ')'] [] []).2 ∧
      (∃ p, (exampleIndex noStemmer).postingOf ['j', 'u', 'm', 'p', 's'] (toUInt 2) = some p) ∧
      filterBy (exampleIndex noStemmer) [⟨⟨['f', 'o', 'x'], [['f', 'o', 'x']]⟩, 1⟩] = none ∧
      rankedSearchSet [1, 2] (exampleIndex noStemmer) (buildQueries noStemmer ['j', 'u', 'm', 'p', 's', ' ', '1', '(', 'f', 'o', 'x', ')'] [] []).1 = none ∧
      rankedSearch realArith noStemmer [1, 2] (exampleIndex noStemmer) ['j', 'u', 'm', 'p', 's', ' ', '1', '(', 'f', 'o', 'x', ')'] = none ∧
      (¬ ∃ res s, rankedSearch realArith noStemmer [1, 2] (exampleIndex noStemmer) ['j', 'u', 'm', 'p', 's', ' ', '1', '(', 'f', 'o', 'x', ')'] = some res ∧
        (s, 2) ∈ res) ∧
      ∃ res s, rankedSearch realArith noStemmer [1, 2] (exampleIndex noStemmer) ['j', 'u', 'm', 'p', 's', ' '] = some res ∧
        (s, 2) ∈ res := by
  have hset : rankedSearchSet [1, 2] (exampleIndex noStemmer)
      (buildQueries noStemmer ['j', 'u', 'm', 'p', 's', ' ', '1', '(', 'f', 'o', 'x', ')'] [] []).1 = none := by decide
  have hnone : rankedSearch realArith noStemmer [1, 2] (exampleIndex noStemmer) ['j', 'u', 'm', 'p', 's', ' ', '1', '(', 'f', 'o', 'x', ')'] = none := by
    unfold rankedSearch
    rw [hset]
  refine ⟨by decide, by decide, Option.isSome_iff_exists.mp (by decide), by decide, hset, hnone,
    ?_, ?_⟩
  · rintro ⟨res, s, hres, _⟩
    rw [hnone] at hres
    exact absurd hres (by simp)
  · apply (rankedSearch_entry_iff realArith noStemmer [1, 2] (exampleIndex noStemmer)
      ['j', 'u', 'm', 'p', 's', ' '] 2).mpr
    exact ⟨⟨[1, 2], by decide, by decide⟩, ['j', 'u', 'm', 'p', 's'], by decide,
      Option.isSome_iff_exists.mp (by decide)⟩

theorem specEntryWeight_eq (idx : Index) (N d : Nat) (t : Str) (ti : TermInfo) (p : Posting)
    (hti : (idx.getTermInfo t).1 = some ti) (hp : mapFind (toUInt d) ti.postings = some p) :
    specEntryWeight idx N d t = some (specWeight N ti.df p.tf) := by
  unfold specEntryWeight
  rw [hti]
  simp only [hp]

/-- The score of a document for a one-term query whose term has a posting for it. -/
theorem score_single_term (coll : List Nat) (idx : Index) (fq : Query) (t : Str) (d : Nat)
    (ti : TermInfo) (p : Posting) (hterms : fq.terms = [t])
    (hti : (idx.getTermInfo t).1 = some ti) (hp : mapFind (toUInt d) ti.postings = some p) :
    score realArith coll idx [] [fq] d = (true, specWeight coll.length ti.df p.tf) := by
  have hall : scoreAllTerms [] [fq] = List.replicate 1 t := by
    simp [scoreAllTerms, hterms]
  apply Prod.ext
  · apply (score_fst realArith coll idx [] [fq] d).mpr
    refine ⟨t, by rw [hall]; simp, p, ?_⟩
    rw [getTermInfo_fst] at hti
    exact (postingOf_eq_some_iff idx t _ p).mpr ⟨ti, hti, hp⟩
  · rw [score_snd_real, hall,
      specScore_replicate idx _ d t _ (specEntryWeight_eq idx _ d t ti p hti hp) 1]
    simp

theorem specWeight_two_two_one : specWeight 2 2 1 = 0 := by
  simp [specWeight]

theorem specWeight_one_two_one : specWeight 1 2 1 = -1 := by
  simp only [specWeight, Nat.cast_one, Nat.cast_ofNat, Real.logb_one, add_zero, one_mul]
  rw [one_div, Real.logb_inv, Real.logb_self_eq_one (by norm_num)]

theorem specWeight_one_two_two : specWeight 1 2 2 = -2 := by
  simp only [specWeight, Nat.cast_one, Nat.cast_ofNat]
  rw [one_div, Real.logb_inv, Real.logb_self_eq_one (by norm_num)]
  norm_num

/-- Claim C25, failing input. Documents 1 = `the quick fox` and 2 = `quick fox jumps` (`N = 2`),
query `quick`: the term occurs in both documents (`df = 2`), so each weight is
`(1 + log2 1) * log2 (2 / 2) = 0`, and `rankedSearch` returns both documents with
score 0. -/
theorem rankedSearch_zero_score :
    rankedSearch realArith noStemmer [1, 2] (exampleIndex noStemmer) ['q', 'u', 'i', 'c', 'k'] =
      some [((0 : ℝ), 1), ((0 : ℝ), 2)] := by
  have hbq : buildQueries noStemmer ['q', 'u', 'i', 'c', 'k'] [] [] = ([], [⟨['q', 'u', 'i', 'c', 'k'], [['q', 'u', 'i', 'c', 'k']]⟩]) := by decide
  have hti : ((exampleIndex noStemmer).getTermInfo ['q', 'u', 'i', 'c', 'k']).1 =
      some ⟨['q', 'u', 'i', 'c', 'k'], 2, [(1, ⟨1, 1, [2]⟩), (2, ⟨2, 1, [1]⟩)]⟩ := by decide
  have hs1 := score_single_term [1, 2] (exampleIndex noStemmer) ⟨['q', 'u', 'i', 'c', 'k'], [['q', 'u', 'i', 'c', 'k']]⟩ ['q', 'u', 'i', 'c', 'k'] 1
    _ ⟨1, 1, [2]⟩ rfl hti (by decide)
  have hs2 := score_single_term [1, 2] (exampleIndex noStemmer) ⟨['q', 'u', 'i', 'c', 'k'], [['q', 'u', 'i', 'c', 'k']]⟩ ['q', 'u', 'i', 'c', 'k'] 2
    _ ⟨2, 1, [1]⟩ rfl hti (by decide)
  simp only [List.length_cons, List.length_nil, Nat.reduceAdd, specWeight_two_two_one]
    at hs1 hs2
  have hlt : realArith.lt 0 0 = false := by simp [realArith]
  unfold rankedSearch rankedSearchSet
  rw [hbq]
  simp [rankedSearchLoop, hs1, hs2, multimapInsert, hlt]

/-- Claim C23 as stated fails after ingestion of a question/answer record. Reading the
tokens `{"context":`, `"fox",`, `"question":`, `"fox?",`, `"id":` with
`tokenizeCollection` set indexes `fox` for document 1 and, from the question, for the
sentinel document 0: `N = 1` and `df = 2`. Reading the same record with the passage
`"fox fox",` gives the same `N` and `df` and `tf = 2` instead of 1, and the score of
document 1 for the query `fox` goes down from -1 to -2. -/
theorem score_decreases_with_tf :
    buildFromSquadData noStemmer true [['\x7b', '"', 'c', 'o', 'n', 't', 'e', 'x', 't', '"', ':'], ['"', 'f', 'o', 'x', '"', ','], ['"', 'q', 'u', 'e', 's', 't', 'i', 'o', 'n', '"', ':'], ['"', 'f', 'o', 'x', '?', '"', ','], ['"', 'i', 'd', '"', ':']] [] Index.empty =
        some ([1], ⟨[(['f', 'o', 'x'], ⟨['f', 'o', 'x'], 2, [(0, ⟨0, 1, [0]⟩), (1, ⟨1, 1, [1]⟩)]⟩)]⟩) ∧
      buildFromSquadData noStemmer true [['\x7b', '"', 'c', 'o', 'n', 't', 'e', 'x', 't', '"', ':'], ['"', 'f', 'o', 'x'], ['f', 'o', 'x', '"', ','], ['"', 'q', 'u', 'e', 's', 't', 'i', 'o', 'n', '"', ':'], ['"', 'f', 'o', 'x', '?', '"', ','], ['"', 'i', 'd', '"', ':']] [] Index.empty =
        some ([1], ⟨[(['f', 'o', 'x'], ⟨['f', 'o', 'x'], 2, [(0, ⟨0, 1, [0]⟩), (1, ⟨1, 2, [1, 2]⟩)]⟩)]⟩) ∧
      score realArith [1] ⟨[(['f', 'o', 'x'], ⟨['f', 'o', 'x'], 2, [(0, ⟨0, 1, [0]⟩), (1, ⟨1, 1, [1]⟩)]⟩)]⟩
        [] [⟨['f', 'o', 'x'], [['f', 'o', 'x']]⟩] 1 = (true, -1) ∧
      score realArith [1] ⟨[(['f', 'o', 'x'], ⟨['f', 'o', 'x'], 2, [(0, ⟨0, 1, [0]⟩), (1, ⟨1, 2, [1, 2]⟩)]⟩)]⟩
        [] [⟨['f', 'o', 'x'], [['f', 'o', 'x']]⟩] 1 = (true, -2) ∧
      termWeight realArith 1 2 2 < termWeight realArith 1 2 1 := by
  refine ⟨by decide, by decide, ?_, ?_, ?_⟩
  · have h := score_single_term [1]
      ⟨[(['f', 'o', 'x'], ⟨['f', 'o', 'x'], 2, [(0, ⟨0, 1, [0]⟩), (1, ⟨1, 1, [1]⟩)]⟩)]⟩ ⟨['f', 'o', 'x'], [['f', 'o', 'x']]⟩ ['f', 'o', 'x'] 1
      ⟨['f', 'o', 'x'], 2, [(0, ⟨0, 1, [0]⟩), (1, ⟨1, 1, [1]⟩)]⟩ ⟨1, 1, [1]⟩ rfl (by decide) (by decide)
    simpa [specWeight_one_two_one] using h
  · have h := score_single_term [1]
      ⟨[(['f', 'o', 'x'], ⟨['f', 'o', 'x'], 2, [(0, ⟨0, 1, [0]⟩), (1, ⟨1, 2, [1, 2]⟩)]⟩)]⟩ ⟨['f', 'o', 'x'], [['f', 'o', 'x']]⟩ ['f', 'o', 'x'] 1
      ⟨['f', 'o', 'x'], 2, [(0, ⟨0, 1, [0]⟩), (1, ⟨1, 2, [1, 2]⟩)]⟩ ⟨1, 2, [1, 2]⟩ rfl (by decide)
      (by decide)
    simpa [specWeight_one_two_two] using h
  · rw [termWeight_real, termWeight_real, specWeight_one_two_one, specWeight_one_two_two]
    norm_num

theorem logb_two_cast_nonneg (tf : Nat) (htf : 1 ≤ tf) : 0 ≤ Real.logb 2 (tf : ℝ) :=
  Real.logb_nonneg (by norm_num) (by exact_mod_cast htf)

/-- The weight does not decrease with `tf` when `1 <= df <= N`. -/
theorem specWeight_mono_tf (N df tf tf' : Nat) (htf : 1 ≤ tf) (hle : tf ≤ tf')
    (hdf : 1 ≤ df) (hN : df ≤ N) : specWeight N df tf ≤ specWeight N df tf' := by
  unfold specWeight
  have hdfpos : (0 : ℝ) < (df : ℝ) := by exact_mod_cast hdf
  have hidf : 0 ≤ Real.logb 2 ((N : ℝ) / (df : ℝ)) := by
    apply Real.logb_nonneg (by norm_num)
    rw [le_div_iff₀ hdfpos, one_mul]
    exact_mod_cast hN
  have htfpos : (0 : ℝ) < (tf : ℝ) := by exact_mod_cast htf
  have hlog : Real.logb 2 (tf : ℝ) ≤ Real.logb 2 (tf' : ℝ) :=
    Real.logb_le_logb_of_le (by norm_num) htfpos (by exact_mod_cast hle)
  exact mul_le_mul_of_nonneg_right (by linarith) hidf

/-- The weight does not increase with `df` for a matched term. -/
theorem specWeight_anti_df (N tf df df' : Nat) (htf : 1 ≤ tf) (hdf : 1 ≤ df)
    (hle : df ≤ df') : specWeight N df' tf ≤ specWeight N df tf := by
  unfold specWeight
  have htfnn := logb_two_cast_nonneg tf htf
  have hdfpos : (0 : ℝ) < (df : ℝ) := by exact_mod_cast hdf
  have hdfpos' : (0 : ℝ) < (df' : ℝ) := by exact_mod_cast (Nat.le_trans hdf hle)
  have hidf : Real.logb 2 ((N : ℝ) / (df' : ℝ)) ≤ Real.logb 2 ((N : ℝ) / (df : ℝ)) := by
    rcases Nat.eq_zero_or_pos N with hN | hN
    · simp [hN]
    · have hNpos : (0 : ℝ) < (N : ℝ) := by exact_mod_cast hN
      apply Real.logb_le_logb_of_le (by norm_num) (div_pos hNpos hdfpos')
      exact div_le_div_of_nonneg_left (le_of_lt hNpos) hdfpos (by exact_mod_cast hle)
  exact mul_le_mul_of_nonneg_left hidf (by linarith)

/-- Claim C23, amended. For a matched term whose `df` does not exceed `N` (`tf >= 1`,
`1 <= df <= N`), increasing `tf` while holding `df` and `N` fixed does not decrease
the term's weight `(1 + log2(tf)) * log2(N / df)`, and so does not decrease a score
that is the sum of such weights: for entries `(tf, tf', df)` with `tf <= tf'`, the sum
of the weights at `tf` is at most the sum of the weights at `tf'`. -/
theorem termWeight_mono_tf (N df tf tf' : Nat) (htf : 1 ≤ tf) (hle : tf ≤ tf')
    (hdf : 1 ≤ df) (hN : df ≤ N) (entries : List (Nat × Nat × Nat))
    (hentries : ∀ e ∈ entries, 1 ≤ e.1 ∧ e.1 ≤ e.2.1 ∧ 1 ≤ e.2.2 ∧ e.2.2 ≤ N) :
    termWeight realArith N df tf ≤ termWeight realArith N df tf' ∧
      (entries.map (fun e => termWeight realArith N e.2.2 e.1)).sum ≤
        (entries.map (fun e => termWeight realArith N e.2.2 e.2.1)).sum := by
  constructor
  · rw [termWeight_real, termWeight_real]
    exact specWeight_mono_tf N df tf tf' htf hle hdf hN
  · apply List.sum_le_sum
    intro e he
    have h := hentries e he
    rw [termWeight_real, termWeight_real]
    exact specWeight_mono_tf N e.2.2 e.1 e.2.1 h.1 h.2.1 h.2.2.1 h.2.2.2

/-- Witness for C23 (amended): `N = 2`, `df = 1`, `tf` from 1 to 2, and two entries. -/
theorem termWeight_mono_tf_witness :
    (∀ e ∈ [((1 : Nat), (2 : Nat), (1 : Nat)), (1, 3, 2)],
        1 ≤ e.1 ∧ e.1 ≤ e.2.1 ∧ 1 ≤ e.2.2 ∧ e.2.2 ≤ 2) ∧
      (termWeight realArith 2 1 1 ≤ termWeight realArith 2 1 2 ∧
        ([((1 : Nat), (2 : Nat), (1 : Nat)), (1, 3, 2)].map
            (fun e => termWeight realArith 2 e.2.2 e.1)).sum ≤
          ([((1 : Nat), (2 : Nat), (1 : Nat)), (1, 3, 2)].map
            (fun e => termWeight realArith 2 e.2.2 e.2.1)).sum) :=
  ⟨by decide,
    termWeight_mono_tf 2 1 1 2 (by decide) (by decide) (by decide) (by decide)
      [(1, 2, 1), (1, 3, 2)] (by decide)⟩

/-- Claim C24. For every matched term (`tf >= 1`, hence `df >= 1`), increasing `df` while
holding `tf` and `N` fixed does not increase the term's weight
`(1 + log2(tf)) * log2(N / df)`, and so does not increase a score that is the sum of
such weights: for entries `(tf, df, df')` with `df <= df'`, the sum of the weights at
`df'` is at most the sum of the weights at `df`. -/
theorem termWeight_anti_df (N tf df df' : Nat) (htf : 1 ≤ tf) (hdf : 1 ≤ df)
    (hle : df ≤ df') (entries : List (Nat × Nat × Nat))
    (hentries : ∀ e ∈ entries, 1 ≤ e.1 ∧ 1 ≤ e.2.1 ∧ e.2.1 ≤ e.2.2) :
    termWeight realArith N df' tf ≤ termWeight realArith N df tf ∧
      (entries.map (fun e => termWeight realArith N e.2.2 e.1)).sum ≤
        (entries.map (fun e => termWeight realArith N e.2.1 e.1)).sum := by
  constructor
  · rw [termWeight_real, termWeight_real]
    exact specWeight_anti_df N tf df df' htf hdf hle
  · apply List.sum_le_sum
    intro e he
    have h := hentries e he
    rw [termWeight_real, termWeight_real]
    exact specWeight_anti_df N e.1 e.2.1 e.2.2 h.1 h.2.1 h.2.2

/-- Witness for C24: `N = 2`, `tf = 1`, `df` from 1 to 2 (weight 1 down to 0), and two
entries. -/
theorem termWeight_anti_df_witness :
    (∀ e ∈ [((1 : Nat), (1 : Nat), (2 : Nat)), (3, 2, 5)], 1 ≤ e.1 ∧ 1 ≤ e.2.1 ∧ e.2.1 ≤ e.2.2) ∧
      (termWeight realArith 2 2 1 ≤ termWeight realArith 2 1 1 ∧
        ([((1 : Nat), (1 : Nat), (2 : Nat)), (3, 2, 5)].map
            (fun e => termWeight realArith 2 e.2.2 e.1)).sum ≤
          ([((1 : Nat), (1 : Nat), (2 : Nat)), (3, 2, 5)].map
            (fun e => termWeight realArith 2 e.2.1 e.1)).sum) :=
  ⟨by decide,
    termWeight_anti_df 2 1 1 2 (by decide) (by decide) (by decide)
      [(1, 1, 2), (3, 2, 5)] (by decide)⟩

end SearchEngine
